import Mathlib

/-
Verification development for the GlyphRiot keyed bijective codec
(Go sources: internal/perm.go, the glyph codec, the key policy and the
verified encoder).  Go byte strings are modelled as `List Nat` (each entry
a byte value < 256); Go `int`/`uint64` arithmetic is modelled on `Nat`
with explicit reductions `% 2^w` where wrap-around matters.
-/

set_option maxRecDepth 40000

namespace GlyphRiot

/-- A Go string: a sequence of bytes. -/
abbrev GoStr := List Nat

/-! ## 32-bit word arithmetic (for SHA-256, from crypto/sha256)

SHA-256 is the hash used by `newDRBG`/`refill` in internal/perm.go and by
`EffectiveKeyMaterial`.  Words are `Nat` kept below `2^32` by explicit
reduction. -/

/-- Addition modulo 2^32. -/
def add32 (a b : Nat) : Nat := (a + b) % 4294967296

/-- Bitwise complement of a 32-bit word. -/
def not32 (x : Nat) : Nat := 4294967295 - x % 4294967296

/-- Right rotation of a 32-bit word by `n` (0 < n < 32). -/
def rotr32 (x n : Nat) : Nat :=
  (x % 4294967296) / 2 ^ n + (x % 2 ^ n) * 2 ^ (32 - n)

/-- Logical right shift of a 32-bit word. -/
def shr32 (x n : Nat) : Nat := (x % 4294967296) / 2 ^ n

/-- `Ch(x,y,z)` from FIPS 180-4. -/
def shaCh (x y z : Nat) : Nat := (x &&& y) ^^^ (not32 x &&& z)

/-- `Maj(x,y,z)` from FIPS 180-4. -/
def shaMaj (x y z : Nat) : Nat := (x &&& y) ^^^ (x &&& z) ^^^ (y &&& z)

/-- `Σ₀`. -/
def bsig0 (x : Nat) : Nat := rotr32 x 2 ^^^ rotr32 x 13 ^^^ rotr32 x 22

/-- `Σ₁`. -/
def bsig1 (x : Nat) : Nat := rotr32 x 6 ^^^ rotr32 x 11 ^^^ rotr32 x 25

/-- `σ₀`. -/
def ssig0 (x : Nat) : Nat := rotr32 x 7 ^^^ rotr32 x 18 ^^^ shr32 x 3

/-- `σ₁`. -/
def ssig1 (x : Nat) : Nat := rotr32 x 17 ^^^ rotr32 x 19 ^^^ shr32 x 10

/-- The 64 SHA-256 round constants. -/
def shaK : List Nat :=
  [0x428a2f98, 0x71374491, 0xb5c0fbcf, 0xe9b5dba5,
   0x3956c25b, 0x59f111f1, 0x923f82a4, 0xab1c5ed5] ++
  [0xd807aa98, 0x12835b01, 0x243185be, 0x550c7dc3,
   0x72be5d74, 0x80deb1fe, 0x9bdc06a7, 0xc19bf174] ++
  [0xe49b69c1, 0xefbe4786, 0x0fc19dc6, 0x240ca1cc,
   0x2de92c6f, 0x4a7484aa, 0x5cb0a9dc, 0x76f988da] ++
  [0x983e5152, 0xa831c66d, 0xb00327c8, 0xbf597fc7,
   0xc6e00bf3, 0xd5a79147, 0x06ca6351, 0x14292967] ++
  [0x27b70a85, 0x2e1b2138, 0x4d2c6dfc, 0x53380d13,
   0x650a7354, 0x766a0abb, 0x81c2c92e, 0x92722c85] ++
  [0xa2bfe8a1, 0xa81a664b, 0xc24b8b70, 0xc76c51a3,
   0xd192e819, 0xd6990624, 0xf40e3585, 0x106aa070] ++
  [0x19a4c116, 0x1e376c08, 0x2748774c, 0x34b0bcb5,
   0x391c0cb3, 0x4ed8aa4a, 0x5b9cca4f, 0x682e6ff3] ++
  [0x748f82ee, 0x78a5636f, 0x84c87814, 0x8cc70208,
   0x90befffa, 0xa4506ceb, 0xbef9a3f7, 0xc67178f2]

/-- The eight SHA-256 initial hash values. -/
def shaH0 : List Nat :=
  [0x6a09e667, 0xbb67ae85, 0x3c6ef372, 0xa54ff53a,
   0x510e527f, 0x9b05688c, 0x1f83d9ab, 0x5be0cd19]

/-- Big-endian serialization of a 32-bit word to 4 bytes. -/
def be32 (w : Nat) : List Nat :=
  [w / 16777216 % 256, w / 65536 % 256, w / 256 % 256, w % 256]

/-- Big-endian serialization of a 64-bit word to 8 bytes
(`binary.BigEndian.PutUint64`). -/
def be64 (w : Nat) : List Nat :=
  [w / 2 ^ 56 % 256, w / 2 ^ 48 % 256, w / 2 ^ 40 % 256, w / 2 ^ 32 % 256,
   w / 2 ^ 24 % 256, w / 2 ^ 16 % 256, w / 2 ^ 8 % 256, w % 256]

/-- Group a byte list into big-endian 32-bit words (4 bytes per word). -/
def bytesToWords32 : List Nat → List Nat
  | b0 :: b1 :: b2 :: b3 :: rest =>
      (((b0 * 256 + b1) * 256 + b2) * 256 + b3) :: bytesToWords32 rest
  | _ => []

/-- Extend a 16-word message schedule by `k` further words (FIPS 180-4 6.2.2). -/
def scheduleExt (w : List Nat) : Nat → List Nat
  | 0 => w
  | k + 1 =>
      let n := w.length
      let nw := add32 (add32 (ssig1 (w.getD (n - 2) 0)) (w.getD (n - 7) 0))
                      (add32 (ssig0 (w.getD (n - 15) 0)) (w.getD (n - 16) 0))
      scheduleExt (w ++ [nw]) k

/-- One SHA-256 round: state is the list `[a,b,c,d,e,f,g,h]`. -/
def shaRound (st : List Nat) (kw : Nat × Nat) : List Nat :=
  let a := st.getD 0 0
  let b := st.getD 1 0
  let c := st.getD 2 0
  let d := st.getD 3 0
  let e := st.getD 4 0
  let f := st.getD 5 0
  let g := st.getD 6 0
  let h := st.getD 7 0
  let t1 := add32 (add32 (add32 h (bsig1 e)) (add32 (shaCh e f g) kw.1)) kw.2
  let t2 := add32 (bsig0 a) (shaMaj a b c)
  [add32 t1 t2, a, b, c, add32 d t1, e, f, g]

/-- SHA-256 compression of one 64-byte block into the 8-word chaining state. -/
def compressBlock (h : List Nat) (block : List Nat) : List Nat :=
  let w := scheduleExt (bytesToWords32 block) 48
  let st := (shaK.zip w).foldl shaRound h
  (h.zip st).map fun p => add32 p.1 p.2

/-- SHA-256 padding: append `0x80`, zeros, and the 64-bit big-endian bit length. -/
def shaPad (msg : List Nat) : List Nat :=
  msg ++ 128 :: List.replicate ((64 - (msg.length + 9) % 64) % 64) 0
      ++ be64 ((8 * msg.length) % 2 ^ 64)

/-- Structural worker for `chunks64`; the fuel (initially the byte count)
dominates the number of 64-byte steps, so the zero-fuel arm is never taken. -/
def chunks64Aux : Nat → List Nat → List (List Nat)
  | 0, _ => []
  | fuel + 1, bs =>
      if bs = [] then [] else bs.take 64 :: chunks64Aux fuel (bs.drop 64)

/-- Split a byte list into 64-byte chunks. -/
def chunks64 (bs : List Nat) : List (List Nat) := chunks64Aux bs.length bs

/-- SHA-256 of a byte string, as 32 bytes (`crypto/sha256.Sum256`). -/
def sha256 (msg : List Nat) : List Nat :=
  (((chunks64 (shaPad msg)).foldl compressBlock shaH0).map be32).flatten

/-! ## UTF-8 and Unicode helpers (from unicode/utf8, unicode, strings)

Go strings are byte sequences; rune-level operations (`TrimSpace`, `Fields`,
`RuneCountInString`, `[]rune(s)`) decode UTF-8 with Go's error convention:
an invalid byte decodes to U+FFFD with width 1. -/

/-- Go `utf8.DecodeRune`: first rune of a byte string and its width.
Empty input gives `(U+FFFD, 0)`; an invalid encoding gives `(U+FFFD, 1)`. -/
def decodeRuneGo : List Nat → Nat × Nat
  | [] => (0xFFFD, 0)
  | b0 :: rest =>
    if b0 < 0x80 then (b0, 1)
    else if 0xC2 ≤ b0 ∧ b0 ≤ 0xDF then
      match rest with
      | b1 :: _ =>
        if 0x80 ≤ b1 ∧ b1 ≤ 0xBF then ((b0 - 0xC0) * 64 + (b1 - 0x80), 2)
        else (0xFFFD, 1)
      | [] => (0xFFFD, 1)
    else if 0xE0 ≤ b0 ∧ b0 ≤ 0xEF then
      match rest with
      | b1 :: b2 :: _ =>
        if (if b0 = 0xE0 then 0xA0 else 0x80) ≤ b1 ∧
            b1 ≤ (if b0 = 0xED then 0x9F else 0xBF) ∧
            0x80 ≤ b2 ∧ b2 ≤ 0xBF then
          ((b0 - 0xE0) * 4096 + (b1 - 0x80) * 64 + (b2 - 0x80), 3)
        else (0xFFFD, 1)
      | _ => (0xFFFD, 1)
    else if 0xF0 ≤ b0 ∧ b0 ≤ 0xF4 then
      match rest with
      | b1 :: b2 :: b3 :: _ =>
        if (if b0 = 0xF0 then 0x90 else 0x80) ≤ b1 ∧
            b1 ≤ (if b0 = 0xF4 then 0x8F else 0xBF) ∧
            0x80 ≤ b2 ∧ b2 ≤ 0xBF ∧ 0x80 ≤ b3 ∧ b3 ≤ 0xBF then
          ((b0 - 0xF0) * 262144 + (b1 - 0x80) * 4096 + (b2 - 0x80) * 64 + (b3 - 0x80), 4)
        else (0xFFFD, 1)
      | _ => (0xFFFD, 1)
    else (0xFFFD, 1)

theorem decodeRuneGo_size_pos : ∀ (bs : List Nat), bs ≠ [] → 1 ≤ (decodeRuneGo bs).2
  | [], h => absurd rfl h
  | _ :: _, _ => by
      unfold decodeRuneGo
      repeat' split
      any_goals norm_num
      all_goals contradiction

/-- Go `unicode.IsSpace` (the Unicode White_Space property). -/
def isGoSpace (r : Nat) : Bool :=
  decide (r = 9 ∨ r = 10 ∨ r = 11 ∨ r = 12 ∨ r = 13 ∨ r = 32 ∨
    r = 0x85 ∨ r = 0xA0 ∨ r = 0x1680 ∨ (0x2000 ≤ r ∧ r ≤ 0x200A) ∨
    r = 0x2028 ∨ r = 0x2029 ∨ r = 0x202F ∨ r = 0x205F ∨ r = 0x3000)

/-- Structural worker for `utf8Runes`; each step consumes at least one
byte, so fuel `bs.length` always suffices. -/
def utf8RunesAux : Nat → List Nat → List Nat
  | 0, _ => []
  | fuel + 1, bs =>
      if bs = [] then []
      else (decodeRuneGo bs).1 :: utf8RunesAux fuel (bs.drop (decodeRuneGo bs).2)

/-- The forward rune sequence of a byte string (Go `[]rune(s)` conversion). -/
def utf8Runes (bs : List Nat) : List Nat := utf8RunesAux bs.length bs

/-- Go `utf8.RuneCountInString`. -/
def utf8RuneCount (bs : List Nat) : Nat := (utf8Runes bs).length

/-- Structural worker for `goTrimLeft`. -/
def goTrimLeftAux : Nat → List Nat → List Nat
  | 0, bs => bs
  | fuel + 1, bs =>
      if bs = [] then []
      else if isGoSpace (decodeRuneGo bs).1 then
        goTrimLeftAux fuel (bs.drop (decodeRuneGo bs).2)
      else bs

/-- Go `strings.TrimLeftFunc(s, unicode.IsSpace)`: drop leading space runes. -/
def goTrimLeft (bs : List Nat) : List Nat := goTrimLeftAux bs.length bs

/-- `b` can start a UTF-8 encoded rune (Go `utf8.RuneStart`): not a
continuation byte. -/
def runeStart (b : Nat) : Bool := decide (b < 0x80 ∨ 0xC0 ≤ b)

/-- Decode a suffix candidate for `DecodeLastRune`: accept only when the
decoded width covers the whole suffix, else `(U+FFFD, 1)`. -/
def dlrCheck (suffix : List Nat) : Nat × Nat :=
  let rs := decodeRuneGo suffix
  if rs.2 = suffix.length then rs else (0xFFFD, 1)

/-- Backward rune decoding on the reversed byte list (head = last byte);
implements Go `utf8.DecodeLastRune`'s backward scan of at most 4 bytes for
a start byte. -/
def decodeLastRuneRev : List Nat → Nat × Nat
  | [] => (0xFFFD, 0)
  | b0 :: rest =>
    if b0 < 0x80 then (b0, 1)
    else
      match rest with
      | [] => dlrCheck [b0]
      | [b1] => dlrCheck [b1, b0]
      | b1 :: b2 :: rest2 =>
        if runeStart b1 then dlrCheck [b1, b0]
        else
          match rest2 with
          | [] => dlrCheck [b2, b1, b0]
          | b3 :: rest3 =>
            if runeStart b2 then dlrCheck [b2, b1, b0]
            else
              match rest3 with
              | [] => dlrCheck [b3, b2, b1, b0]
              | _ => if runeStart b3 then dlrCheck [b3, b2, b1, b0]
                     else (0xFFFD, 1)

/-- Go `utf8.DecodeLastRune`: last rune of a byte string and its width. -/
def decodeLastRuneGo (bs : List Nat) : Nat × Nat := decodeLastRuneRev bs.reverse

theorem dlrCheck_size_pos (suffix : List Nat) (h : suffix ≠ []) :
    1 ≤ (dlrCheck suffix).2 := by
  by_cases hc : (decodeRuneGo suffix).2 = suffix.length
  · simpa [dlrCheck, hc] using decodeRuneGo_size_pos suffix h
  · simp [dlrCheck, hc]

theorem decodeLastRuneRev_size_pos :
    ∀ (l : List Nat), l ≠ [] → 1 ≤ (decodeLastRuneRev l).2
  | [], h => absurd rfl h
  | _ :: _, _ => by
      unfold decodeLastRuneRev
      repeat' split
      any_goals (apply dlrCheck_size_pos; simp)
      any_goals norm_num
      all_goals contradiction

theorem decodeLastRuneGo_size_pos (bs : List Nat) (h : bs ≠ []) :
    1 ≤ (decodeLastRuneGo bs).2 :=
  decodeLastRuneRev_size_pos bs.reverse (by simpa using h)

/-- Structural worker for `goTrimRight`. -/
def goTrimRightAux : Nat → List Nat → List Nat
  | 0, bs => bs
  | fuel + 1, bs =>
      if bs = [] then []
      else if isGoSpace (decodeLastRuneGo bs).1 then
        goTrimRightAux fuel (bs.take (bs.length - (decodeLastRuneGo bs).2))
      else bs

/-- Go `strings.TrimRightFunc(s, unicode.IsSpace)`: drop trailing space
runes, decoding from the end. -/
def goTrimRight (bs : List Nat) : List Nat := goTrimRightAux bs.length bs

/-- Go `strings.TrimSpace`. -/
def goTrimSpace (bs : List Nat) : List Nat := goTrimRight (goTrimLeft bs)

/-- Go `strings.ToLower` restricted to ASCII case folding, applied
byte-wise.  Bytes 65–90 (`A`–`Z`) never occur inside a multi-byte UTF-8
sequence, so this agrees with Go's rune-wise mapping on all ASCII input;
Go's full Unicode simple case folding of non-ASCII letters is not modelled
(no claim depends on it). -/
def goToLower (bs : List Nat) : List Nat :=
  bs.map fun b => if 65 ≤ b ∧ b ≤ 90 then b + 32 else b

/-- Structural worker for `takeField`. -/
def takeFieldAux : Nat → List Nat → List Nat
  | 0, _ => []
  | fuel + 1, bs =>
      if bs = [] then []
      else if isGoSpace (decodeRuneGo bs).1 then []
      else bs.take (decodeRuneGo bs).2 ++ takeFieldAux fuel (bs.drop (decodeRuneGo bs).2)

/-- Longest prefix of non-space runes (helper for `goFields`). -/
def takeField (bs : List Nat) : List Nat := takeFieldAux bs.length bs

/-- Structural worker for `goFields`. -/
def goFieldsAux : Nat → List Nat → List (List Nat)
  | 0, _ => []
  | fuel + 1, bs =>
      if bs = [] then []
      else if isGoSpace (decodeRuneGo bs).1 then
        goFieldsAux fuel (bs.drop (decodeRuneGo bs).2)
      else takeField bs :: goFieldsAux fuel (bs.drop (takeField bs).length)

/-- Go `strings.Fields`: split around runs of space runes. -/
def goFields (bs : List Nat) : List (List Nat) := goFieldsAux bs.length bs

/-- UTF-8 encoding of a single rune (Go `WriteRune` for valid runes). -/
def utf8EncodeRune (r : Nat) : List Nat :=
  if r < 0x80 then [r]
  else if r < 0x800 then [0xC0 + r / 64, 0x80 + r % 64]
  else if r < 0x10000 then [0xE0 + r / 4096, 0x80 + r / 64 % 64, 0x80 + r % 64]
  else [0xF0 + r / 262144, 0x80 + r / 4096 % 64, 0x80 + r / 64 % 64, 0x80 + r % 64]

/-- The UTF-8 bytes of a Lean string literal (all literals used here consist
of valid scalar values, matching Go source literals byte for byte). -/
def strUtf8 (s : String) : GoStr :=
  (s.data.map Char.toNat).flatMap utf8EncodeRune

/-! ## The hash-counter DRBG and keyed permutation (internal/perm.go) -/

/-- The `drbg` struct: SHA-256 in counter mode.
`buf = SHA256(seed || counter)` and `nextUint64` draws 8 bytes from `buf`,
refilling as needed. -/
structure Drbg where
  seed : List Nat
  counter : Nat
  buf : List Nat
  off : Nat

/-- `(*drbg).refill`. -/
def drbgRefill (d : Drbg) : Drbg :=
  { d with buf := sha256 (d.seed ++ be64 d.counter), off := 0,
           counter := d.counter + 1 }

/-- `newDRBG`: seed with `SHA256(seedMaterial)` and fill the first block. -/
def newDRBG (seedMaterial : List Nat) : Drbg :=
  drbgRefill { seed := sha256 seedMaterial, counter := 0, buf := [], off := 0 }

/-- The byte-gathering loop of `nextUint64`; `out = (out << 8) | buf[off]`
is `acc * 256 + byte` since each buffer byte is below 256. -/
def nextUint64Aux : Nat → Nat → Drbg → Nat × Drbg
  | 0, acc, d => (acc, d)
  | k + 1, acc, d =>
      let d1 := if d.buf.length ≤ d.off then drbgRefill d else d
      nextUint64Aux k (acc * 256 + d1.buf.getD d1.off 0) { d1 with off := d1.off + 1 }

/-- `(*drbg).nextUint64`. -/
def nextUint64 (d : Drbg) : Nat × Drbg := nextUint64Aux 8 0 d

/-- `^uint64(0)`. -/
def uint64Max : Nat := 18446744073709551615

/-- The acceptance bound of `randInt`: `limit := (max / N) * N`, the largest
multiple of `n` not exceeding `2^64 - 1`. -/
def goLimit (n : Nat) : Nat := (uint64Max / n) * n

/-- The rejection-sampling loop of `randInt`.  Go retries without bound;
each draw is rejected with probability below `n / 2^64`, so for the
`n ≤ 2048` used by `Derive` the chance of even 64 consecutive rejections
is below `2^-672`.  The fuel argument makes the loop total; the
fuel-exhaustion fallback is unreachable in any feasible execution. -/
def randIntAux (n : Nat) : Nat → Drbg → Nat × Drbg
  | 0, d => (0, d)
  | fuel + 1, d =>
      let rd := nextUint64 d
      if rd.1 < goLimit n then (rd.1 % n, rd.2) else randIntAux n fuel rd.2

/-- `(*drbg).randInt`: a uniform integer in `[0, n)` by rejection sampling
(Go guards `n <= 0`; on `Nat` that is `n = 0`). -/
def randInt (d : Drbg) (n : Nat) : Nat × Drbg :=
  if n = 0 then (0, d) else randIntAux n 64 d

/-- Swap `p[i]` and `p[j]` (Go `p[i], p[j] = p[j], p[i]`). -/
def swapAt (p : List Nat) (i j : Nat) : List Nat :=
  (p.set i (p.getD j 0)).set j (p.getD i 0)

/-- The Fisher–Yates loop of `Derive`: `for i := n-1; i > 0; i--` with
`j := drbg.randInt(i + 1)`.  `fyLoop i` runs the iterations at indices
`i, i-1, …, 1`. -/
def fyLoop : Nat → List Nat → Drbg → List Nat × Drbg
  | 0, p, d => (p, d)
  | k + 1, p, d =>
      let jd := randInt d (k + 2)
      fyLoop k (swapAt p (k + 1) jd.1) jd.2

/-- `Inv`: scatter inverse, `inv[v] = i` for each `(i, v)` in `p`
(Go `inv := make([]int, len(p)); for i, v := range p { inv[v] = i }`). -/
def Inv (p : List Nat) : List Nat :=
  p.enum.foldl (fun inv iv => inv.set iv.2 iv.1) (List.replicate p.length 0)

/-- `Derive`: deterministic permutation of `[0..n-1]` and its inverse.
Identity when the key is empty or whitespace; otherwise unbiased
Fisher–Yates driven by the SHA-256 counter DRBG.  (Go takes `int` and
returns empty slices for `n <= 0`; on `Nat` that is `n = 0`.  The
initialization loop `for i { p[i] = i }` is `List.range n`.) -/
def Derive (n : Nat) (key : GoStr) : List Nat × List Nat :=
  if n = 0 then ([], [])
  else if goTrimSpace key = [] then
    let p := List.range n
    (p, Inv p)
  else
    let d := newDRBG key
    let p := (fyLoop (n - 1) (List.range n) d).1
    (p, Inv p)

/-! ## The 4×7 glyph codec -/

/-- `Base`: the numeric base for glyph digits. -/
def Base : Nat := 7

/-- `Len`: the fixed number of glyphs per word. -/
def Len : Nat := 4

/-- `Total`: the number of entries in the word list (BIP-39 English). -/
def Total : Nat := 2048

/-- `Digits`: the ordered glyph runes `△ □ ○ × • ◇ ☆` (code points). -/
def Digits : List Nat := [0x25B3, 0x25A1, 0x25CB, 0xD7, 0x2022, 0x25C7, 0x2606]

/-- The `Decode` map: glyph rune (plus the `x`/`X` aliases for `×`) to its
digit. -/
def Decode (r : Nat) : Option Nat :=
  if r = 0x25B3 then some 0
  else if r = 0x25A1 then some 1
  else if r = 0x25CB then some 2
  else if r = 0xD7 then some 3
  else if r = 0x2022 then some 4
  else if r = 0x25C7 then some 5
  else if r = 0x2606 then some 6
  else if r = 120 ∨ r = 88 then some 3
  else none

/-- The digit-extraction loop of `ToDigits`: `for i := Len-1 .. 0 { out[i] =
code % Base; code /= Base }`, most significant digit first. -/
def toDigitsAux : Nat → Nat → List Nat
  | 0, _ => []
  | k + 1, c => toDigitsAux k (c / Base) ++ [c % Base]

/-- `ToDigits`: a code in `[0, Total)` to its `Len` base-`Base` digits
(MSB first).  Go also rejects negative codes; positions here are `Nat`. -/
def ToDigits (code : Nat) : Option (List Nat) :=
  if code < Total then some (toDigitsAux Len code) else none

/-- The accumulation loop of `FromDigits` with Go's per-digit range check
(digits are Go `int`, hence `Int` here so that negatives are representable). -/
def fromDigitsLoop : Int → List Int → Option Int
  | code, [] => some code
  | code, x :: rest =>
      if x < 0 ∨ (Base : Int) ≤ x then none
      else fromDigitsLoop (code * Base + x) rest

/-- `FromDigits`: `Len` base-`Base` digits back to a code, validating the
digit count, each digit's range, and the final range `[0, Total)`. -/
def FromDigits (d : List Int) : Option Int :=
  if d.length = Len then
    match fromDigitsLoop 0 d with
    | none => none
    | some code => if code < 0 ∨ (Total : Int) ≤ code then none else some code
  else none

/-- `PosToCode` (identity on `[0, Total)`). -/
def PosToCode (pos : Nat) : Option Nat :=
  if pos < Total then some pos else none

/-- `CodeToPos` (identity on `[0, Total)`). -/
def CodeToPos (code : Nat) : Option Nat :=
  if code < Total then some code else none

/-! ## Word-level encode and decode -/

/-- Per-word encode loop of `EncodeWords`: normalize, skip empties, look up
the index, map through `inv`, render 4 glyphs.  `inv.getD idx 0` models
`inv[idx]`; an out-of-range index (impossible for a consistent lookup map,
which always returns values below `Total`) would panic in Go. -/
def encodeLoop (inv : List Nat) (index : GoStr → Option Nat) :
    List GoStr → Except GoStr (List GoStr)
  | [] => .ok []
  | w :: rest =>
      let lw := goToLower (goTrimSpace w)
      if lw = [] then encodeLoop inv index rest
      else
        match index lw with
        | none => .error (strUtf8 "not in active list")
        | some idx =>
          match PosToCode (inv.getD idx 0) with
          | none => .error (strUtf8 "internal error: invalid position")
          | some code =>
            match ToDigits code with
            | none => .error (strUtf8 "internal error: invalid code")
            | some ds =>
              match encodeLoop inv index rest with
              | .error e => .error e
              | .ok toks =>
                  .ok ((ds.map fun digit => Digits.getD digit 0).flatMap
                        utf8EncodeRune :: toks)

/-- `EncodeWords`: encode each input word into a 4-glyph token using the
permutation inverse derived from `key`. -/
def EncodeWords (input : List GoStr) (index : GoStr → Option Nat)
    (wordsList : List GoStr) (key : GoStr) : Except GoStr (List GoStr) :=
  if wordsList.length ≠ Total then
    .error (strUtf8 "wordsList length must be 2048")
  else
    encodeLoop (Derive wordsList.length key).2 index input

/-- `DecodeGlyphToken`: decode one 4-glyph token back to its word.
`p.getD code 0` models `p[code]` (`code < Total = len p` always holds when
`FromDigits` succeeds); Go's `idx < 0` half of the final guard cannot fire
on `Nat`. -/
def DecodeGlyphToken (tok : GoStr) (wordsList : List GoStr) (key : GoStr) :
    Except GoStr GoStr :=
  if wordsList.length ≠ Total then
    .error (strUtf8 "wordsList length must be 2048")
  else
    let p := (Derive wordsList.length key).1
    let runes := utf8Runes (goTrimSpace tok)
    if runes.length ≠ Len then .error (strUtf8 "glyph token must be exactly 4 symbols")
    else
      match runes.mapM Decode with
      | none => .error (strUtf8 "invalid glyph rune")
      | some ds =>
        match FromDigits (ds.map fun x : Nat => (x : Int)) with
        | none => .error (strUtf8 "invalid glyph code")
        | some code =>
          let idx := p.getD code.toNat 0
          if idx < wordsList.length then .ok (wordsList.getD idx [])
          else .error (strUtf8 "invalid glyph code")

/-! ## Key policy: formats, validation, and seed derivation -/

/-- Value of one hex digit byte (encoding/hex). -/
def hexVal (b : Nat) : Option Nat :=
  if 48 ≤ b ∧ b ≤ 57 then some (b - 48)
  else if 97 ≤ b ∧ b ≤ 102 then some (b - 87)
  else if 65 ≤ b ∧ b ≤ 70 then some (b - 55)
  else none

/-- `hex.DecodeString`: pairs of hex digits; odd length or a non-hex byte
fails. -/
def hexDecode : List Nat → Option (List Nat)
  | [] => some []
  | [_] => none
  | a :: b :: rest =>
      match hexVal a, hexVal b with
      | some x, some y => (hexDecode rest).map fun t => (x * 16 + y) :: t
      | _, _ => none

/-- `isStrongHex`: non-empty even-length decodable hex with
`len(s) * 4 >= minBits`. -/
def isStrongHex (s : GoStr) (minBits : Nat) : Bool :=
  if s.length = 0 ∨ s.length % 2 ≠ 0 then false
  else if (hexDecode s).isNone then false
  else decide (minBits ≤ s.length * 4)

/-- The standard base64 alphabet (encoding/base64 `StdEncoding`). -/
def b64StdIdx (b : Nat) : Option Nat :=
  if 65 ≤ b ∧ b ≤ 90 then some (b - 65)
  else if 97 ≤ b ∧ b ≤ 122 then some (b - 71)
  else if 48 ≤ b ∧ b ≤ 57 then some (b + 4)
  else if b = 43 then some 62
  else if b = 47 then some 63
  else none

/-- The URL-safe base64 alphabet (`URLEncoding`/`RawURLEncoding`). -/
def b64UrlIdx (b : Nat) : Option Nat :=
  if 65 ≤ b ∧ b ≤ 90 then some (b - 65)
  else if 97 ≤ b ∧ b ≤ 122 then some (b - 71)
  else if 48 ≤ b ∧ b ≤ 57 then some (b + 4)
  else if b = 45 then some 62
  else if b = 95 then some 63
  else none

/-- Base64 quantum decoding after newline filtering: 4-symbol groups to
3 bytes; a padded encoding allows `xx==`/`xxx=` only as the final group,
an unpadded (Raw) encoding allows a final group of 2 or 3 symbols.  Go's
default (non-strict) mode ignores non-zero trailing bits, so partial
groups decode by truncation.  Byte 61 is `=`. -/
def b64Chunks (idxf : Nat → Option Nat) (padded : Bool) : List Nat → Option (List Nat)
  | [] => some []
  | [a, b] =>
      if padded then none
      else
        match idxf a, idxf b with
        | some va, some vb => some [va * 4 + vb / 16]
        | _, _ => none
  | [a, b, c] =>
      if padded then none
      else
        match idxf a, idxf b, idxf c with
        | some va, some vb, some vc => some [va * 4 + vb / 16, vb % 16 * 16 + vc / 4]
        | _, _, _ => none
  | a :: b :: c :: d :: rest =>
      match idxf a, idxf b with
      | some va, some vb =>
        (if c = 61 then
          (if d = 61 ∧ rest = [] ∧ padded then some [va * 4 + vb / 16] else none)
        else
          match idxf c with
          | none => none
          | some vc =>
            (if d = 61 then
              (if rest = [] ∧ padded then
                some [va * 4 + vb / 16, vb % 16 * 16 + vc / 4]
              else none)
            else
              match idxf d with
              | none => none
              | some vd =>
                  (b64Chunks idxf padded rest).map fun t =>
                    (va * 4 + vb / 16) :: (vb % 16 * 16 + vc / 4) ::
                      (vc % 4 * 64 + vd) :: t))
      | _, _ => none
  | [_] => none

/-- A base64 `DecodeString`: Go's decoder skips `\r` and `\n` anywhere. -/
def b64Decode (idxf : Nat → Option Nat) (padded : Bool) (s : GoStr) :
    Option (List Nat) :=
  b64Chunks idxf padded (s.filter fun b => !(b == 13 || b == 10))

/-- `isStrongBase64`: try `StdEncoding`, then `RawURLEncoding`, then
`RawStdEncoding`; accept when the decoded length reaches `minBits / 8`
bytes. -/
def isStrongBase64 (s : GoStr) (minBits : Nat) : Bool :=
  let data :=
    match b64Decode b64StdIdx true s with
    | some d => some d
    | none =>
      match b64Decode b64UrlIdx false s with
      | some d => some d
      | none => b64Decode b64StdIdx false s
  match data with
  | none => false
  | some d => decide (minBits ≤ d.length * 8)

/-- `KeyPolicy` (Go `uint32`/`uint8` cost fields are modelled as `Nat`:
they are only compared with zero and multiplied for the KDF call). -/
structure KeyPolicy where
  KDF : GoStr
  KDFMemMB : Nat
  KDFTime : Nat
  KDFParallel : Nat
  AllowWeak : Bool

/-- `DefaultKeyPolicy`. -/
def DefaultKeyPolicy : KeyPolicy :=
  { KDF := strUtf8 "argon2id", KDFMemMB := 512, KDFTime := 3,
    KDFParallel := 1, AllowWeak := false }

/-- `MinBitsForContext`. -/
def MinBitsForContext (tokenOrWordCount : Nat) : Nat :=
  if 24 ≤ tokenOrWordCount then 256 else 128

/-- `strings.ToLower(strings.TrimSpace(policy.KDF))`, the KDF-mode switch
scrutinee in `EffectiveKeyMaterial` and `ValidateKeyStrength`. -/
def normKdf (policy : KeyPolicy) : GoStr := goToLower (goTrimSpace policy.KDF)

/-- Modelled from the spec: `argon2.IDKey` is the memory-hard
password-hashing function from golang.org/x/crypto — an external
dependency, not code of this repository.  Its argument order is
`(password, salt, time, memoryKiB, parallelism, outLen)`.  No claim
depends on its output values, so the whole development is parametric in
it. -/
def Argon2Fn : Type := GoStr → GoStr → Nat → Nat → Nat → Nat → GoStr

/-- `EffectiveKeyMaterial`: derive the canonical 32-byte seed.  Zero cost
parameters are replaced by the defaults 512 MB / 3 iterations /
parallelism 1; an unknown KDF mode is an error. -/
def EffectiveKeyMaterial (a2 : Argon2Fn) (key : GoStr) (policy : KeyPolicy) :
    Except GoStr GoStr :=
  let kdf := normKdf policy
  if kdf = [] ∨ kdf = strUtf8 "argon2id" then
    let salt := strUtf8 "GlyphRiot/v1/argon2id/domain-sep"
    let mem := if policy.KDFMemMB = 0 then 512 else policy.KDFMemMB
    let time := if policy.KDFTime = 0 then 3 else policy.KDFTime
    let par := if policy.KDFParallel = 0 then 1 else policy.KDFParallel
    .ok (sha256 (a2 key salt time (mem * 1024) par 32))
  else if kdf = strUtf8 "none" then .ok (sha256 key)
  else .error (strUtf8 "unknown KDF (supported: argon2id, none)")

/-- `normalizedWords`: `strings.Fields(strings.ToLower(strings.TrimSpace(s)))`
with empty entries dropped. -/
def normalizedWords (s : GoStr) : List GoStr :=
  (goFields (goToLower (goTrimSpace s))).filter fun f => decide (f ≠ [])

/-- `bip39BitsIfValid`: a 12- or 24-word phrase all of whose words are in
the (lowercased, trimmed) vocabulary yields 128 or 256 bits.  The embedded
`WordsBIP39EN` list is not among the sources, so the vocabulary is a
parameter. -/
def bip39BitsIfValid (bip : List GoStr) (key : GoStr) : Option Nat :=
  let words := normalizedWords key
  if words.length ≠ 12 ∧ words.length ≠ 24 then none
  else
    let bipIndex := bip.map fun w => goToLower (goTrimSpace w)
    if words.all fun w => decide (w ∈ bipIndex) then
      if words.length = 12 then some 128 else some 256
    else none

/-- `satisfiesPureEntropyFormats`: a valid vocabulary phrase is judged by
its tier alone (early return); otherwise strong hex, then strong base64. -/
def satisfiesPureEntropyFormats (bip : List GoStr) (key : GoStr) (minBits : Nat) :
    Bool :=
  match bip39BitsIfValid bip key with
  | some bits => decide (minBits ≤ bits)
  | none => isStrongHex key minBits || isStrongBase64 key minBits

/-- `ValidateKeyStrength`. -/
def ValidateKeyStrength (bip : List GoStr) (key : GoStr) (minBits : Nat)
    (policy : KeyPolicy) : Except GoStr Unit :=
  let key := goTrimSpace key
  if key = [] then
    if policy.AllowWeak then .ok ()
    else .error (strUtf8 "key is empty; provide a strong key or use --allow-weak-key")
  else
    let kdf := normKdf policy
    if kdf = [] ∨ kdf = strUtf8 "argon2id" then
      let minLen := if 256 ≤ minBits then 20 else 16
      if utf8RuneCount key < minLen then
        if policy.AllowWeak then .ok ()
        else .error (strUtf8 "key too short")
      else .ok ()
    else if kdf = strUtf8 "none" then
      if satisfiesPureEntropyFormats bip key minBits then .ok ()
      else if policy.AllowWeak then .ok ()
      else .error (strUtf8 "key does not meet minimum")
    else
      if policy.AllowWeak then .ok ()
      else .error (strUtf8 "unknown KDF (supported: argon2id, none)")

/-- `EnforceOrError` (forwards to `ValidateKeyStrength`). -/
def EnforceOrError (bip : List GoStr) (key : GoStr) (minBits : Nat)
    (policy : KeyPolicy) : Except GoStr Unit :=
  ValidateKeyStrength bip key minBits policy

/-- `MustEffectiveKeyMaterial`: enforce strength, then derive. -/
def MustEffectiveKeyMaterial (a2 : Argon2Fn) (bip : List GoStr) (key : GoStr)
    (minBits : Nat) (policy : KeyPolicy) : Except GoStr GoStr :=
  match EnforceOrError bip key minBits policy with
  | .error e => .error e
  | .ok _ => EffectiveKeyMaterial a2 key policy

/-! ## The verified encoder -/

/-- `normalizeWords`: lowercase and trim each word, skipping empties. -/
def normalizeWords (words : List GoStr) : List GoStr :=
  (words.map fun w => goToLower (goTrimSpace w)).filter fun w => decide (w ≠ [])

/-- Modelled from the spec: `DecodeGlyphTokens` (the batch decode called by
`EncodeWordsVerified` and `main`) is not among the sources; per §4.4 the
decoder maps each symbol sequence to its word in input order, failing on
the first invalid sequence, each via the per-token `DecodeGlyphToken`. -/
def DecodeGlyphTokens (tokens : List GoStr) (wordsList : List GoStr)
    (key : GoStr) : Except GoStr (List GoStr) :=
  match tokens with
  | [] => .ok []
  | t :: rest =>
    match DecodeGlyphToken t wordsList key with
    | .error e => .error e
    | .ok w =>
      match DecodeGlyphTokens rest wordsList key with
      | .error e => .error e
      | .ok ws => .ok (w :: ws)

/-- The effective-key computation of `EncodeWordsVerified` (its lines
`effKey := ""; if TrimSpace(key) != "" { seed32, err := MustEffectiveKeyMaterial…;
effKey = string(seed32[:]) }`): empty for a whitespace key, else the
32-byte seed, with enforcement errors propagated. -/
def effKeyOf (a2 : Argon2Fn) (bip : List GoStr) (key : GoStr)
    (policy : KeyPolicy) (nWords : Nat) : Except GoStr GoStr :=
  if goTrimSpace key = [] then .ok []
  else MustEffectiveKeyMaterial a2 bip key (MinBitsForContext nWords) policy

/-- `EncodeWordsVerified`: encode, then decode the output with the same
effective key and compare order-sensitively with the normalized input
(the Go index loop after the length check equals list equality). -/
def EncodeWordsVerified (a2 : Argon2Fn) (bip : List GoStr) (words : List GoStr)
    (index : GoStr → Option Nat) (wordsList : List GoStr) (key : GoStr)
    (policy : KeyPolicy) : Except GoStr (List GoStr) :=
  if wordsList.length ≠ Total then
    .error (strUtf8 "wordsList length must be 2048")
  else
    let normalized := normalizeWords words
    if normalized = [] then .error (strUtf8 "no words provided")
    else
      match effKeyOf a2 bip key policy normalized.length with
      | .error e => .error e
      | .ok effKey =>
        match EncodeWords normalized index wordsList effKey with
        | .error _ => .error (strUtf8 "encode failed")
        | .ok glyphs =>
          match DecodeGlyphTokens glyphs wordsList effKey with
          | .error _ => .error (strUtf8 "decode failed")
          | .ok decoded =>
            if decoded.length ≠ normalized.length then
              .error (strUtf8 "round-trip mismatch: decoded length differs")
            else if decoded ≠ normalized then
              .error (strUtf8 "round-trip mismatch")
            else .ok glyphs

/-! ## Permutation machinery: `Derive` yields a bijection with `Inv` its
inverse, for every key.  The proofs use only that every Fisher–Yates draw
lands in `[0, i]`, so they hold whatever the DRBG emits. -/

theorem getD_set_self (l : List Nat) (i v : Nat) (h : i < l.length) :
    (l.set i v).getD i 0 = v := by
  rw [List.getD_eq_getElem?_getD, List.getElem?_set]
  simp [h]

theorem getD_set_ne (l : List Nat) (i j v : Nat) (h : i ≠ j) :
    (l.set i v).getD j 0 = l.getD j 0 := by
  rw [List.getD_eq_getElem?_getD, List.getElem?_set, if_neg h,
    ← List.getD_eq_getElem?_getD]

theorem set_getD_self (l : List Nat) (i : Nat) (h : i < l.length) :
    l.set i (l.getD i 0) = l := by
  apply List.ext_getElem?
  intro j
  rw [List.getElem?_set]
  split
  · rename_i hij
    subst hij
    rw [List.getD_eq_getElem l 0 h, List.getElem?_eq_getElem h]
  · rfl

theorem set_perm (l : List Nat) (i v : Nat) (h : i < l.length) :
    (l.set i v ++ [l.getD i 0]).Perm (l ++ [v]) := by
  induction l generalizing i with
  | nil => simp at h
  | cons x xs ih =>
    cases i with
    | zero =>
      refine ((List.Perm.cons v (List.perm_append_singleton x xs)).trans ?_)
      refine (List.Perm.swap x v xs).trans ?_
      exact List.Perm.cons x (List.perm_append_singleton v xs).symm
    | succ i =>
      have hx : i < xs.length := by simpa using h
      simpa using List.Perm.cons x (ih i hx)

theorem swapAt_length (p : List Nat) (i j : Nat) :
    (swapAt p i j).length = p.length := by
  simp [swapAt]

theorem swapAt_perm (p : List Nat) (i j : Nat) (hi : i < p.length)
    (hj : j < p.length) : (swapAt p i j).Perm p := by
  by_cases hij : i = j
  · subst hij
    unfold swapAt
    rw [List.set_set, set_getD_self p i hi]
  · have h1 : (p.set i (p.getD j 0) ++ [p.getD i 0]).Perm (p ++ [p.getD j 0]) :=
      set_perm p i _ hi
    have h2 : ((p.set i (p.getD j 0)).set j (p.getD i 0) ++
        [(p.set i (p.getD j 0)).getD j 0]).Perm
        (p.set i (p.getD j 0) ++ [p.getD i 0]) :=
      set_perm _ j _ (by simpa using hj)
    rw [getD_set_ne _ _ _ _ hij] at h2
    exact (List.perm_append_right_iff _).mp (h2.trans h1)

theorem randIntAux_lt (n : Nat) (hn : 0 < n) :
    ∀ (fuel : Nat) (d : Drbg), (randIntAux n fuel d).1 < n
  | 0, _ => hn
  | fuel + 1, d => by
      unfold randIntAux
      dsimp only
      split
      · exact Nat.mod_lt _ hn
      · exact randIntAux_lt n hn fuel _

theorem randInt_lt (d : Drbg) (n : Nat) (hn : 0 < n) : (randInt d n).1 < n := by
  unfold randInt
  rw [if_neg (by omega : ¬n = 0)]
  exact randIntAux_lt n hn 64 d

theorem fyLoop_perm :
    ∀ (k : Nat) (p : List Nat) (d : Drbg), k < p.length →
      ((fyLoop k p d).1).Perm p
  | 0, _, _, _ => List.Perm.refl _
  | k + 1, p, d, hk => by
      unfold fyLoop
      have hj : (randInt d (k + 2)).1 < p.length :=
        lt_of_lt_of_le (randInt_lt d (k + 2) (by omega)) (by omega)
      have hrec := fyLoop_perm k (swapAt p (k + 1) (randInt d (k + 2)).1)
        (randInt d (k + 2)).2 (by rw [swapAt_length]; omega)
      exact hrec.trans (swapAt_perm p (k + 1) _ hk hj)

/-- The first component of `Derive` is a permutation of `[0, n)`. -/
theorem Derive_perm (n : Nat) (key : GoStr) :
    ((Derive n key).1).Perm (List.range n) := by
  unfold Derive
  split
  · rename_i h
    subst h
    simp
  · split
    · exact List.Perm.refl _
    · rename_i hn _
      exact fyLoop_perm (n - 1) (List.range n) (newDRBG key)
        (by simp; omega)

theorem foldl_set_length :
    ∀ (l : List (Nat × Nat)) (acc : List Nat),
      (l.foldl (fun inv iv => inv.set iv.2 iv.1) acc).length = acc.length
  | [], _ => rfl
  | iv :: rest, acc => by
      simp only [List.foldl_cons]
      rw [foldl_set_length rest _]
      simp

theorem foldl_set_untouched :
    ∀ (l : List (Nat × Nat)) (acc : List Nat) (j : Nat),
      (∀ iv ∈ l, iv.2 ≠ j) →
      (l.foldl (fun inv iv => inv.set iv.2 iv.1) acc).getD j 0 = acc.getD j 0
  | [], _, _, _ => rfl
  | iv :: rest, acc, j, h => by
      simp only [List.foldl_cons]
      rw [foldl_set_untouched rest _ j (fun x hx => h x (by simp [hx]))]
      exact getD_set_ne acc iv.2 j iv.1 (h iv (by simp))

theorem scatter_aux :
    ∀ (p : List Nat) (i0 : Nat) (acc : List Nat),
      (∀ v ∈ p, v < acc.length) → p.Nodup →
      ∀ (k : Nat), k < p.length →
        ((List.enumFrom i0 p).foldl (fun inv iv => inv.set iv.2 iv.1) acc).getD
          (p.getD k 0) 0 = i0 + k
  | [], _, _, _, _, k, hk => by simp at hk
  | v :: rest, i0, acc, hv, hn, k, hk => by
      rw [List.enumFrom_cons]
      simp only [List.foldl_cons]
      cases k with
      | zero =>
        have hnotin : v ∉ rest := (List.nodup_cons.mp hn).1
        have huntouched : ∀ iv ∈ List.enumFrom (i0 + 1) rest, iv.2 ≠ v := by
          intro iv hiv hvv
          apply hnotin
          obtain ⟨a, b⟩ := iv
          obtain ⟨_, h2, h3⟩ := List.mem_enumFrom hiv
          subst hvv
          rw [h3]
          exact List.getElem_mem _
        simp only [List.getD_cons_zero]
        rw [foldl_set_untouched _ _ _ huntouched]
        simpa using getD_set_self acc v i0 (hv v (by simp))
      | succ k =>
        have := scatter_aux rest (i0 + 1) (acc.set v i0)
          (by intro x hx; simpa using hv x (by simp [hx]))
          (List.nodup_cons.mp hn).2 k (by simpa using hk)
        simp only [List.getD_cons_succ]
        rw [this]
        omega

theorem Inv_length (p : List Nat) : (Inv p).length = p.length := by
  unfold Inv
  rw [foldl_set_length]
  simp

/-- `Inv` computes a left inverse pointwise: `inv[p[k]] = k`. -/
theorem Inv_getD_eq (p : List Nat) (hv : ∀ v ∈ p, v < p.length)
    (hn : p.Nodup) (k : Nat) (hk : k < p.length) :
    (Inv p).getD (p.getD k 0) 0 = k := by
  have := scatter_aux p 0 (List.replicate p.length 0)
    (by simpa using hv) hn k hk
  simpa [Inv, List.enum] using this

/-- Facts about any `p` that is a permutation of `range n`, packaged for
reuse: `Inv p` is also bounded by `n` and is a two-sided inverse. -/
theorem perm_inv_facts (p : List Nat) (n : Nat) (hp : p.Perm (List.range n))
    (i : Nat) (hi : i < n) :
    (Inv p).getD i 0 < n ∧ p.getD ((Inv p).getD i 0) 0 = i := by
  have hlen : p.length = n := by simpa using hp.length_eq
  have hnd : p.Nodup := hp.symm.nodup (List.nodup_range n)
  have hv : ∀ v ∈ p, v < p.length := by
    intro v hvmem
    rw [hlen]
    exact List.mem_range.mp (hp.mem_iff.mp hvmem)
  have hmem : i ∈ p := hp.mem_iff.mpr (List.mem_range.mpr hi)
  obtain ⟨k, hklt, hpk⟩ := List.mem_iff_getElem.mp hmem
  have hgd : p.getD k 0 = i := by rw [List.getD_eq_getElem p 0 hklt, hpk]
  have hinv : (Inv p).getD i 0 = k := by
    rw [← hgd]
    exact Inv_getD_eq p hv hnd k hklt
  constructor
  · rw [hinv, ← hlen]
    exact hklt
  · rw [hinv, hgd]

/-! ## Unfolding and fuel-congruence facts for the UTF-8 workers -/

theorem utf8RunesAux_congr :
    ∀ (f1 f2 : Nat) (bs : List Nat), bs.length ≤ f1 → bs.length ≤ f2 →
      utf8RunesAux f1 bs = utf8RunesAux f2 bs
  | 0, f2, bs, h1, _ => by
      have hb : bs = [] := List.eq_nil_of_length_eq_zero (by omega)
      subst hb
      cases f2 <;> simp [utf8RunesAux]
  | f1 + 1, 0, bs, _, h2 => by
      have hb : bs = [] := List.eq_nil_of_length_eq_zero (by omega)
      subst hb
      simp [utf8RunesAux]
  | f1 + 1, f2 + 1, bs, h1, h2 => by
      by_cases hb : bs = []
      · subst hb
        simp [utf8RunesAux]
      · simp only [utf8RunesAux, if_neg hb]
        congr 1
        have hs := decodeRuneGo_size_pos bs hb
        exact utf8RunesAux_congr f1 f2 _
          (by rw [List.length_drop]; omega) (by rw [List.length_drop]; omega)

theorem utf8Runes_cons (bs : List Nat) (hb : bs ≠ []) :
    utf8Runes bs =
      (decodeRuneGo bs).1 :: utf8Runes (bs.drop (decodeRuneGo bs).2) := by
  unfold utf8Runes
  obtain ⟨m, hm⟩ : ∃ m, bs.length = m + 1 :=
    ⟨bs.length - 1, by have := List.length_pos.mpr hb; omega⟩
  rw [hm]
  simp only [utf8RunesAux, if_neg hb]
  congr 1
  have hs := decodeRuneGo_size_pos bs hb
  exact utf8RunesAux_congr m _ _ (by rw [List.length_drop]; omega) le_rfl

theorem goTrimLeftAux_all_space :
    ∀ (fuel : Nat) (bs : List Nat), bs.length ≤ fuel →
      (∀ r ∈ utf8Runes bs, isGoSpace r = true) → goTrimLeftAux fuel bs = []
  | 0, bs, h1, _ => by
      have hb : bs = [] := List.eq_nil_of_length_eq_zero (by omega)
      subst hb
      rfl
  | fuel + 1, bs, h1, hws => by
      by_cases hb : bs = []
      · subst hb
        rfl
      · rw [utf8Runes_cons bs hb] at hws
        have hhead : isGoSpace (decodeRuneGo bs).1 = true := hws _ (by simp)
        have hstep : goTrimLeftAux (fuel + 1) bs =
            goTrimLeftAux fuel (bs.drop (decodeRuneGo bs).2) := by
          simp [goTrimLeftAux, hb, hhead]
        rw [hstep]
        have hs := decodeRuneGo_size_pos bs hb
        exact goTrimLeftAux_all_space fuel _
          (by rw [List.length_drop]; omega)
          (fun r hr => hws r (by simp [hr]))

/-- A byte string all of whose runes are Unicode whitespace trims to
nothing (`strings.TrimSpace` gives `""`). -/
theorem goTrimSpace_all_space (bs : List Nat)
    (hws : ∀ r ∈ utf8Runes bs, isGoSpace r = true) : goTrimSpace bs = [] := by
  unfold goTrimSpace
  rw [show goTrimLeft bs = [] from goTrimLeftAux_all_space bs.length bs le_rfl hws]
  rfl

/-! ## `Derive` facts: identity on the empty key, and the pair shape -/

theorem Inv_range (n : Nat) : Inv (List.range n) = List.range n := by
  apply List.ext_getElem
  · rw [Inv_length]
  · intro i h1 h2
    have hlen : (List.range n).length = n := by simp
    have hi : i < n := by
      rw [Inv_length] at h1
      simpa using h1
    have hgd : (List.range n).getD i 0 = i := by
      rw [List.getD_eq_getElem _ 0 (by simpa using hi)]
      exact List.getElem_range i _
    have := Inv_getD_eq (List.range n)
      (by intro v hv; simpa using List.mem_range.mp (by simpa using hv))
      (List.nodup_range n) i (by simpa using hi)
    rw [hgd] at this
    rw [← List.getD_eq_getElem (Inv (List.range n)) 0 h1, this,
      List.getElem_range i h2]

theorem Derive_nokey (n : Nat) : Derive n [] = (List.range n, List.range n) := by
  unfold Derive
  by_cases hn : n = 0
  · subst hn
    simp
  · rw [if_neg hn, if_pos (show goTrimSpace ([] : GoStr) = [] from rfl)]
    show (List.range n, Inv (List.range n)) = (List.range n, List.range n)
    rw [Inv_range]

theorem Derive_snd (n : Nat) (key : GoStr) :
    (Derive n key).2 = Inv (Derive n key).1 := by
  unfold Derive
  split
  · simp [Inv]
  · split <;> rfl

/-! ## Glyph and digit-codec facts -/

theorem glyph_facts (d : Nat) (hd : d < 7) :
    Decode (Digits.getD d 0) = some d ∧
    isGoSpace (Digits.getD d 0) = false ∧
    (∀ rest : List Nat,
      decodeRuneGo (utf8EncodeRune (Digits.getD d 0) ++ rest) =
        (Digits.getD d 0, (utf8EncodeRune (Digits.getD d 0)).length)) ∧
    (∀ rest : List Nat,
      decodeLastRuneRev ((utf8EncodeRune (Digits.getD d 0)).reverse ++ rest) =
        (Digits.getD d 0, (utf8EncodeRune (Digits.getD d 0)).length)) := by
  interval_cases d <;>
    refine ⟨by decide, by decide, fun rest => ?_, fun rest => ?_⟩ <;>
    first
      | (norm_num [Digits, utf8EncodeRune, decodeRuneGo]; done)
      | (cases rest with
          | nil => decide
          | cons x xs =>
              simp only [Digits, utf8EncodeRune, decodeLastRuneRev]
              norm_num [runeStart, dlrCheck, decodeRuneGo])

theorem toDigitsAux_lt : ∀ (k c x : Nat), x ∈ toDigitsAux k c → x < 7
  | 0, c, x, hx => by simp [toDigitsAux] at hx
  | k + 1, c, x, hx => by
      simp only [toDigitsAux, List.mem_append, List.mem_singleton] at hx
      rcases hx with hx | hx
      · exact toDigitsAux_lt k _ x hx
      · subst hx
        exact Nat.mod_lt _ (by norm_num [Base])

theorem toDigitsAux_length : ∀ (k c : Nat), (toDigitsAux k c).length = k
  | 0, _ => rfl
  | k + 1, c => by simp [toDigitsAux, toDigitsAux_length k]

theorem toDigitsAux_4_eq (c : Nat) :
    toDigitsAux 4 c = [c / 343 % 7, c / 49 % 7, c / 7 % 7, c % 7] := by
  simp [toDigitsAux, Base, Nat.div_div_eq_div_mul]

theorem mapM_decode_digits :
    ∀ (ds : List Nat), (∀ x ∈ ds, x < 7) →
      List.mapM Decode (ds.map fun digit => Digits.getD digit 0) = some ds
  | [], _ => rfl
  | d :: rest, h => by
      have hd := (glyph_facts d (h d (by simp))).1
      simp only [List.map_cons, List.mapM_cons, hd]
      rw [mapM_decode_digits rest (fun x hx => h x (by simp [hx]))]
      rfl

theorem fromDigitsLoop_isSome :
    ∀ (d : List Int) (acc : Int),
      ((fromDigitsLoop acc d).isSome = true ↔ ∀ x ∈ d, 0 ≤ x ∧ x < 7)
  | [], acc => by simp [fromDigitsLoop]
  | x :: rest, acc => by
      simp only [fromDigitsLoop]
      by_cases hx : x < 0 ∨ (Base : Int) ≤ x
      · rw [if_pos hx]
        simp only [Option.isSome_none, Bool.false_eq_true, false_iff]
        intro hall
        have := hall x (by simp)
        simp [Base] at hx
        omega
      · rw [if_neg hx]
        rw [fromDigitsLoop_isSome rest _]
        simp [Base] at hx
        constructor
        · intro h y hy
          rcases List.mem_cons.mp hy with rfl | hy
          · omega
          · exact h y hy
        · intro h y hy
          exact h y (by simp [hy])

theorem fromDigitsLoop_eq_foldl :
    ∀ (d : List Int) (acc : Int), (∀ x ∈ d, 0 ≤ x ∧ x < 7) →
      fromDigitsLoop acc d = some (d.foldl (fun a x => a * 7 + x) acc)
  | [], acc, _ => by simp [fromDigitsLoop]
  | x :: rest, acc, h => by
      have hx : ¬(x < 0 ∨ (Base : Int) ≤ x) := by
        have := h x (by simp)
        simp only [Base]
        push_cast
        omega
      simp only [fromDigitsLoop, if_neg hx, List.foldl_cons]
      have hb : (Base : Int) = 7 := by norm_num [Base]
      rw [hb]
      exact fromDigitsLoop_eq_foldl rest _ (fun y hy => h y (by simp [hy]))

theorem foldl_digits_nonneg :
    ∀ (d : List Int) (acc : Int), 0 ≤ acc → (∀ x ∈ d, 0 ≤ x ∧ x < 7) →
      0 ≤ d.foldl (fun a x => a * 7 + x) acc
  | [], acc, ha, _ => by simpa using ha
  | x :: rest, acc, ha, h => by
      simp only [List.foldl_cons]
      refine foldl_digits_nonneg rest _ ?_ (fun y hy => h y (by simp [hy]))
      have := h x (by simp)
      omega

theorem FromDigits_eq_some (d : List Int) (hlen : d.length = 4)
    (hall : ∀ x ∈ d, 0 ≤ x ∧ x < 7)
    (hval : d.foldl (fun a x => a * 7 + x) 0 < 2048) :
    FromDigits d = some (d.foldl (fun a x => a * 7 + x) 0) := by
  unfold FromDigits
  rw [if_pos (by simpa [Len] using hlen), fromDigitsLoop_eq_foldl _ 0 hall]
  dsimp only
  rw [if_neg]
  have h0 := foldl_digits_nonneg d 0 le_rfl hall
  simp only [Total]
  push_neg
  exact ⟨h0, by exact_mod_cast hval⟩

theorem FromDigits_toDigits (pos : Nat) (h : pos < 2048) :
    FromDigits ((toDigitsAux 4 pos).map fun x : Nat => (x : Int)) =
      some (pos : Int) := by
  have hfold : (((toDigitsAux 4 pos).map fun x : Nat => (x : Int)).foldl
      (fun a x => a * 7 + x) 0) = (pos : Int) := by
    rw [toDigitsAux_4_eq]
    simp only [List.map_cons, List.map_nil, List.foldl_cons, List.foldl_nil]
    omega
  have h1 := FromDigits_eq_some ((toDigitsAux 4 pos).map fun x : Nat => (x : Int))
    (by simp [toDigitsAux_length])
    (by
      intro x hx
      simp only [List.mem_map] at hx
      obtain ⟨y, hy, rfl⟩ := hx
      have := toDigitsAux_lt 4 pos y hy
      omega)
    (by rw [hfold]; exact_mod_cast h)
  rw [h1, hfold]

/-! ## Claim C2: identity permutation on the empty key -/

/-- C2: for every `n > 0`, `Derive(n, "")` (the empty key) returns the
identity permutation — `P[i] = i` for every `i` in `[0, n)`. -/
theorem C2_derive_empty_key_identity (n : Nat) (hn : 0 < n) (i : Nat)
    (hi : i < n) : ((Derive n (strUtf8 "")).1).getD i 0 = i := by
  have he : strUtf8 "" = ([] : GoStr) := rfl
  rw [he, Derive_nokey]
  rw [List.getD_eq_getElem _ 0 (by simpa using hi)]
  exact List.getElem_range i _

/-- Witness for C2 at `n = 5`, `i = 3`. -/
theorem C2_derive_empty_key_identity_witness :
    0 < 5 ∧ 3 < 5 ∧ ((Derive 5 (strUtf8 "")).1).getD 3 0 = 3 :=
  ⟨by decide, by decide,
    C2_derive_empty_key_identity 5 (by decide) 3 (by decide)⟩

/-! ## Claim C3: `Derive` always returns a bijection and its inverse -/

/-- C3: for every `n > 0` and every key, `P = (Derive n key).1` is a total
bijection of `[0, n)` — it has length `n` and every value `v < n` appears
exactly once — and the second component satisfies `inv[P[k]] = k` for all
`k < n`. -/
theorem C3_derive_permutation_valid (n : Nat) (key : GoStr) (hn : 0 < n) :
    ((Derive n key).1).length = n ∧
    (∀ v, v < n → ((Derive n key).1).count v = 1) ∧
    (∀ k, k < n →
      ((Derive n key).2).getD (((Derive n key).1).getD k 0) 0 = k) := by
  have hp := Derive_perm n key
  have hlen : ((Derive n key).1).length = n := by simpa using hp.length_eq
  refine ⟨hlen, ?_, ?_⟩
  · intro v hv
    rw [hp.count_eq v]
    exact List.count_eq_one_of_mem (List.nodup_range n) (List.mem_range.mpr hv)
  · intro k hk
    rw [Derive_snd]
    exact Inv_getD_eq (Derive n key).1
      (fun v hvmem => by
        rw [hlen]
        exact List.mem_range.mp (hp.mem_iff.mp hvmem))
      (hp.symm.nodup (List.nodup_range n)) k (by rw [hlen]; exact hk)

/-- Witness for C3 at `n = 3` with the non-trivial key `"k"`. -/
theorem C3_derive_permutation_valid_witness :
    0 < 3 ∧
    (((Derive 3 (strUtf8 "k")).1).length = 3 ∧
      (∀ v, v < 3 → ((Derive 3 (strUtf8 "k")).1).count v = 1) ∧
      (∀ k, k < 3 →
        ((Derive 3 (strUtf8 "k")).2).getD
          (((Derive 3 (strUtf8 "k")).1).getD k 0) 0 = k)) :=
  ⟨by decide, C3_derive_permutation_valid 3 (strUtf8 "k") (by decide)⟩

/-! ## Claim C4: `FromDigits` acceptance characterization and counting -/

/-- The seven base-7 digits as `Int`s. -/
def digitRange : List Int := [0, 1, 2, 3, 4, 5, 6]

/-- The 343 digit vectors over `[0, 7)^4` with first digit `a`. -/
def digitBlock (a : Int) : List (List Int) :=
  digitRange.flatMap fun b => digitRange.flatMap fun c =>
    digitRange.map fun e => [a, b, c, e]

/-- All `7^4 = 2401` digit vectors over `[0, 7)^4`. -/
def allDigitVectors : List (List Int) := digitRange.flatMap digitBlock

theorem allDigitVectors_split :
    allDigitVectors =
      digitBlock 0 ++ (digitBlock 1 ++ (digitBlock 2 ++ (digitBlock 3 ++
        (digitBlock 4 ++ (digitBlock 5 ++ (digitBlock 6 ++ [])))))) := by
  simp [allDigitVectors, digitRange, List.flatMap_cons, List.flatMap_nil]

theorem C4_fromDigits_range_rejection :
    (∀ d : List Int, (FromDigits d).isSome = true ↔
      (d.length = Len ∧ (∀ x ∈ d, 0 ≤ x ∧ x < (Base : Int)) ∧
        d.foldl (fun a x => a * (Base : Int) + x) 0 < (Total : Int))) ∧
    allDigitVectors.length = 2401 ∧
    ((allDigitVectors.filter fun d => (FromDigits d).isSome).length = 2048) ∧
    ((allDigitVectors.filter fun d => (FromDigits d).isNone).length = 353) ∧
    (∀ d ∈ allDigitVectors, (FromDigits d).isNone = true →
      (Total : Int) ≤ d.foldl (fun a x => a * (Base : Int) + x) 0) := by
  refine ⟨?_, ?_, ?_, ?_, ?_⟩
  case refine_2 =>
    rw [allDigitVectors_split]
    simp only [List.length_append]
    norm_num [show (digitBlock 0).length = 343 from by decide,
      show (digitBlock 1).length = 343 from by decide,
      show (digitBlock 2).length = 343 from by decide,
      show (digitBlock 3).length = 343 from by decide,
      show (digitBlock 4).length = 343 from by decide,
      show (digitBlock 5).length = 343 from by decide,
      show (digitBlock 6).length = 343 from by decide]
  case refine_3 =>
    rw [allDigitVectors_split]
    simp only [List.filter_append, List.length_append]
    norm_num [show ((digitBlock 0).filter fun d => (FromDigits d).isSome).length = 343 from by decide,
      show ((digitBlock 1).filter fun d => (FromDigits d).isSome).length = 343 from by decide,
      show ((digitBlock 2).filter fun d => (FromDigits d).isSome).length = 343 from by decide,
      show ((digitBlock 3).filter fun d => (FromDigits d).isSome).length = 343 from by decide,
      show ((digitBlock 4).filter fun d => (FromDigits d).isSome).length = 343 from by decide,
      show ((digitBlock 5).filter fun d => (FromDigits d).isSome).length = 333 from by decide,
      show ((digitBlock 6).filter fun d => (FromDigits d).isSome).length = 0 from by decide]
  case refine_4 =>
    rw [allDigitVectors_split]
    simp only [List.filter_append, List.length_append]
    norm_num [show ((digitBlock 0).filter fun d => (FromDigits d).isNone).length = 0 from by decide,
      show ((digitBlock 1).filter fun d => (FromDigits d).isNone).length = 0 from by decide,
      show ((digitBlock 2).filter fun d => (FromDigits d).isNone).length = 0 from by decide,
      show ((digitBlock 3).filter fun d => (FromDigits d).isNone).length = 0 from by decide,
      show ((digitBlock 4).filter fun d => (FromDigits d).isNone).length = 0 from by decide,
      show ((digitBlock 5).filter fun d => (FromDigits d).isNone).length = 10 from by decide,
      show ((digitBlock 6).filter fun d => (FromDigits d).isNone).length = 343 from by decide]
  case refine_5 =>
    rw [allDigitVectors_split]
    intro d hd
    simp only [List.mem_append] at hd
    rcases hd with hd | hd | hd | hd | hd | hd | hd | hd
    · revert d; decide
    · revert d; decide
    · revert d; decide
    · revert d; decide
    · revert d; decide
    · revert d; decide
    · revert d; decide
    · simp at hd
  case refine_1 =>
    intro d
    have hb7 : ((Base : Nat) : Int) = 7 := by norm_num [Base]
    constructor
    · intro hs
      unfold FromDigits at hs
      by_cases hlen : d.length = Len
      · rw [if_pos hlen] at hs
        have hloop : (fromDigitsLoop 0 d).isSome = true := by
          by_contra hc
          rw [Option.not_isSome_iff_eq_none] at hc
          rw [hc] at hs
          simp at hs
        have hall : ∀ x ∈ d, 0 ≤ x ∧ x < 7 := (fromDigitsLoop_isSome d 0).mp hloop
        have hfold := fromDigitsLoop_eq_foldl d 0 hall
        rw [hfold] at hs
        dsimp only at hs
        refine ⟨hlen, by simpa [hb7] using hall, ?_⟩
        by_cases hr : List.foldl (fun a x => a * 7 + x) 0 d < 0 ∨
            ((Total : Nat) : Int) ≤ List.foldl (fun a x => a * 7 + x) 0 d
        · rw [if_pos hr] at hs
          simp at hs
        · push_neg at hr
          have := hr.2
          simp only [Total] at this ⊢
          calc d.foldl (fun a x => a * (Base : Int) + x) 0
              = d.foldl (fun a x => a * 7 + x) 0 := by rw [hb7]
            _ < 2048 := by exact_mod_cast this
      · rw [if_neg hlen] at hs
        simp at hs
    · rintro ⟨hlen, hall, hval⟩
      have hall7 : ∀ x ∈ d, 0 ≤ x ∧ x < 7 := by simpa [hb7] using hall
      have hv7 : d.foldl (fun a x => a * 7 + x) 0 < 2048 := by
        have : d.foldl (fun a x => a * (Base : Int) + x) 0 =
            d.foldl (fun a x => a * 7 + x) 0 := by rw [hb7]
        rw [this] at hval
        simpa [Total] using hval
      rw [FromDigits_eq_some d (by simpa [Len] using hlen) hall7 hv7]
      rfl

/-! ## Claim C5: rejection sampling in `randInt` -/

theorem card_mod_filter (m n v : Nat) (hn : 0 < n) (hv : v < n) :
    ((Finset.range (m * n)).filter fun r => r % n = v).card = m := by
  have key : ((Finset.range (m * n)).filter fun r => r % n = v).card =
      (Finset.range m).card := by
    apply Finset.card_bij' (fun r _ => r / n) (fun q _ => q * n + v)
    · intro r hr
      simp only [Finset.mem_filter, Finset.mem_range] at hr
      simp only [Finset.mem_range]
      exact (Nat.div_lt_iff_lt_mul hn).mpr hr.1
    · intro q hq
      simp only [Finset.mem_range] at hq
      simp only [Finset.mem_filter, Finset.mem_range]
      refine ⟨?_, ?_⟩
      · calc q * n + v < q * n + n := by omega
          _ = (q + 1) * n := by ring
          _ ≤ m * n := Nat.mul_le_mul_right n hq
      · rw [show q * n = n * q from Nat.mul_comm q n, Nat.mul_add_mod]
        exact Nat.mod_eq_of_lt hv
    · intro r hr
      simp only [Finset.mem_filter, Finset.mem_range] at hr
      rw [← hr.2]
      exact Nat.div_add_mod' r n
    · intro q hq
      rw [show q * n = n * q from Nat.mul_comm q n, Nat.mul_add_div hn,
        Nat.div_eq_of_lt hv]
      omega
  rw [key, Finset.card_range]

/-- C5: for `1 ≤ n ≤ 2^63`, `randInt` rejection-samples: its bound
`goLimit n = (2^64-1)/n * n` is the largest multiple of `n` not exceeding
`2^64 - 1`; each loop iteration accepts a draw `r < goLimit n` as `r % n`
and redraws otherwise; and the map from `[0, goLimit n)` onto `[0, n)` by
`% n` is exactly `(goLimit n / n)`-to-one, so no residue is favoured. -/
theorem C5_randInt_rejection_sampling (n : Nat) (h1 : 1 ≤ n)
    (h2 : n ≤ 2 ^ 63) :
    (n ∣ goLimit n ∧ goLimit n ≤ uint64Max ∧
      ∀ m, n ∣ m → m ≤ uint64Max → m ≤ goLimit n) ∧
    (∀ (d : Drbg) (fuel : Nat),
      randIntAux n (fuel + 1) d =
        if (nextUint64 d).1 < goLimit n
        then ((nextUint64 d).1 % n, (nextUint64 d).2)
        else randIntAux n fuel (nextUint64 d).2) ∧
    (∀ v, v < n →
      ((Finset.range (goLimit n)).filter fun r => r % n = v).card =
        goLimit n / n) := by
  have hn : 0 < n := h1
  refine ⟨⟨Dvd.intro (uint64Max / n) (Nat.mul_comm _ _), Nat.div_mul_le_self _ _, ?_⟩,
    fun d fuel => rfl, ?_⟩
  · intro m hdvd hle
    obtain ⟨q, rfl⟩ := hdvd
    have hq : q ≤ uint64Max / n := (Nat.le_div_iff_mul_le hn).mpr
      (by rw [Nat.mul_comm]; exact hle)
    calc n * q ≤ n * (uint64Max / n) := Nat.mul_le_mul_left n hq
      _ = goLimit n := Nat.mul_comm _ _
  · intro v hv
    have hL : goLimit n = (uint64Max / n) * n := rfl
    rw [hL, Nat.mul_div_cancel _ hn]
    exact card_mod_filter (uint64Max / n) n v hn hv

/-- Witness for C5 at `n = 3`. -/
theorem C5_randInt_rejection_sampling_witness :
    1 ≤ 3 ∧ 3 ≤ 2 ^ 63 ∧
    ((3 ∣ goLimit 3 ∧ goLimit 3 ≤ uint64Max ∧
        ∀ m, 3 ∣ m → m ≤ uint64Max → m ≤ goLimit 3) ∧
      (∀ (d : Drbg) (fuel : Nat),
        randIntAux 3 (fuel + 1) d =
          if (nextUint64 d).1 < goLimit 3
          then ((nextUint64 d).1 % 3, (nextUint64 d).2)
          else randIntAux 3 fuel (nextUint64 d).2) ∧
      (∀ v, v < 3 →
        ((Finset.range (goLimit 3)).filter fun r => r % 3 = v).card =
          goLimit 3 / 3)) :=
  ⟨by norm_num, by norm_num,
    C5_randInt_rejection_sampling 3 (by norm_num) (by norm_num)⟩


/-! ## Claim C1: keyed encode/decode round trip -/

theorem utf8EncodeRune_ne_nil (r : Nat) : utf8EncodeRune r ≠ [] := by
  unfold utf8EncodeRune
  repeat' split
  all_goals simp

theorem utf8Runes_token : ∀ (ds : List Nat), (∀ d ∈ ds, d < 7) →
    utf8Runes ((ds.map fun d => Digits.getD d 0).flatMap utf8EncodeRune) =
      ds.map fun d => Digits.getD d 0
  | [], _ => rfl
  | d :: rest, h => by
      simp only [List.map_cons, List.flatMap_cons]
      have hg := (glyph_facts d (h d (by simp))).2.2.1
      have hne : utf8EncodeRune (Digits.getD d 0) ++
          ((rest.map fun d => Digits.getD d 0).flatMap utf8EncodeRune) ≠ [] := by
        simp [utf8EncodeRune_ne_nil]
      rw [utf8Runes_cons _ hne, hg]
      dsimp only
      rw [List.drop_left]
      rw [utf8Runes_token rest (fun x hx => h x (by simp [hx]))]

theorem exists_concat : ∀ (l : List Nat), l ≠ [] → ∃ init last, l = init ++ [last]
  | [a], _ => ⟨[], a, rfl⟩
  | a :: b :: rest, _ => by
      obtain ⟨i, la, hi⟩ := exists_concat (b :: rest) (by simp)
      exact ⟨a :: i, la, by simp [hi]⟩

theorem goTrim_token (ds : List Nat) (hne : ds ≠ []) (h : ∀ d ∈ ds, d < 7) :
    goTrimSpace ((ds.map fun d => Digits.getD d 0).flatMap utf8EncodeRune) =
      (ds.map fun d => Digits.getD d 0).flatMap utf8EncodeRune := by
  obtain ⟨d1, drest, rfl⟩ : ∃ d1 drest, ds = d1 :: drest := by
    cases ds with
    | nil => exact absurd rfl hne
    | cons a l => exact ⟨a, l, rfl⟩
  set tok := ((d1 :: drest).map fun d => Digits.getD d 0).flatMap utf8EncodeRune
    with htok
  have htokne : tok ≠ [] := by
    rw [htok]
    simp only [List.map_cons, List.flatMap_cons]
    simp [utf8EncodeRune_ne_nil]
  have hdr : decodeRuneGo tok =
      (Digits.getD d1 0, (utf8EncodeRune (Digits.getD d1 0)).length) := by
    rw [htok]
    simp only [List.map_cons, List.flatMap_cons]
    exact (glyph_facts d1 (h d1 (by simp))).2.2.1 _
  have hsp1 : isGoSpace (decodeRuneGo tok).1 = false := by
    rw [hdr]
    exact (glyph_facts d1 (h d1 (by simp))).2.1
  have hleft : goTrimLeft tok = tok := by
    obtain ⟨m, hm⟩ : ∃ m, tok.length = m + 1 :=
      ⟨tok.length - 1, by have := List.length_pos.mpr htokne; omega⟩
    unfold goTrimLeft
    rw [hm]
    simp only [goTrimLeftAux, if_neg htokne, hsp1]
    simp
  obtain ⟨init, dlast, hconcat⟩ := exists_concat (d1 :: drest) (by simp)
  have hdlast7 : dlast < 7 := h dlast (by rw [hconcat]; simp)
  have hlast : decodeLastRuneGo tok =
      (Digits.getD dlast 0, (utf8EncodeRune (Digits.getD dlast 0)).length) := by
    unfold decodeLastRuneGo
    rw [htok, hconcat]
    simp only [List.map_append, List.flatMap_append, List.map_cons,
      List.map_nil, List.flatMap_cons, List.flatMap_nil, List.append_nil]
    rw [List.reverse_append]
    exact (glyph_facts dlast hdlast7).2.2.2 _
  have hsp2 : isGoSpace (decodeLastRuneGo tok).1 = false := by
    rw [hlast]
    exact (glyph_facts dlast hdlast7).2.1
  have hright : goTrimRight tok = tok := by
    obtain ⟨m, hm⟩ : ∃ m, tok.length = m + 1 :=
      ⟨tok.length - 1, by have := List.length_pos.mpr htokne; omega⟩
    unfold goTrimRight
    rw [hm]
    simp only [goTrimRightAux, if_neg htokne, hsp2]
    simp
  unfold goTrimSpace
  rw [hleft, hright]



theorem encodeLoop_single (inv : List Nat) (index : GoStr → Option Nat)
    (w : GoStr) (i0 : Nat) (hne : goToLower (goTrimSpace w) ≠ [])
    (hidx : index (goToLower (goTrimSpace w)) = some i0)
    (hpos : inv.getD i0 0 < Total) :
    encodeLoop inv index [w] = .ok
      [((toDigitsAux 4 (inv.getD i0 0)).map fun digit =>
          Digits.getD digit 0).flatMap utf8EncodeRune] := by
  simp only [encodeLoop, if_neg hne, hidx, PosToCode, if_pos hpos, ToDigits,
    Len]

theorem decodeGlyphToken_eval (wl : List GoStr) (key : GoStr) (pos i0 : Nat)
    (hlen : wl.length = Total) (hpos : pos < Total) (hi0 : i0 < Total)
    (hp : ((Derive wl.length key).1).getD pos 0 = i0) :
    DecodeGlyphToken
      (((toDigitsAux 4 pos).map fun digit => Digits.getD digit 0).flatMap
        utf8EncodeRune) wl key = .ok (wl.getD i0 []) := by
  have hds7 : ∀ x ∈ toDigitsAux 4 pos, x < 7 :=
    fun x hx => toDigitsAux_lt 4 pos x hx
  have hdslen : (toDigitsAux 4 pos).length = 4 := toDigitsAux_length 4 pos
  have hdsne : toDigitsAux 4 pos ≠ [] := by
    intro hc
    rw [hc] at hdslen
    simp at hdslen
  have htrim := goTrim_token (toDigitsAux 4 pos) hdsne hds7
  have hrunes := utf8Runes_token (toDigitsAux 4 pos) hds7
  have hmapm := mapM_decode_digits (toDigitsAux 4 pos) hds7
  have hfrom := FromDigits_toDigits pos (by simpa [Total] using hpos)
  have hrlen : ((toDigitsAux 4 pos).map fun d => Digits.getD d 0).length = 4 := by
    simp [hdslen]
  simp only [DecodeGlyphToken, if_neg (by simp [hlen] : ¬wl.length ≠ Total),
    htrim, hrunes, hrlen, Len, if_neg (by norm_num : ¬(4 : Nat) ≠ 4), hmapm,
    hfrom, Int.toNat_natCast, hp]
  rw [if_pos (by rw [hlen]; exact hi0)]

/-- C1: for a 2048-entry word list whose lookup index is consistent at a
position `i0` (the index maps the lowercased, trimmed form of the word at
`i0` back to `i0`, and that normalized form is non-empty), encoding that
word with `EncodeWords` under any key and decoding the resulting 4-glyph
token with `DecodeGlyphToken` under the same key returns exactly that
word.  The hypotheses here are the per-word consequences of the claim's
global ones (2048 unique, non-empty words with a consistent lowercase
lookup index), so this implies the claim for every word of such a
vocabulary. -/
theorem C1_encode_decode_roundtrip (wl : List GoStr)
    (index : GoStr → Option Nat) (key : GoStr) (i0 : Nat)
    (hlen : wl.length = Total) (hi0 : i0 < Total)
    (hidx : index (goToLower (goTrimSpace (wl.getD i0 []))) = some i0)
    (hne : goToLower (goTrimSpace (wl.getD i0 [])) ≠ []) :
    ∃ tok, EncodeWords [wl.getD i0 []] index wl key = .ok [tok] ∧
      DecodeGlyphToken tok wl key = .ok (wl.getD i0 []) := by
  have hp : ((Derive wl.length key).1).Perm (List.range Total) := by
    rw [hlen]
    exact Derive_perm Total key
  have hinvf := perm_inv_facts (Derive wl.length key).1 Total hp i0 hi0
  have hinv2 : (Derive wl.length key).2 = Inv (Derive wl.length key).1 :=
    Derive_snd wl.length key
  have hpos : ((Derive wl.length key).2).getD i0 0 < Total := by
    rw [hinv2]
    exact hinvf.1
  have hppos : ((Derive wl.length key).1).getD
      (((Derive wl.length key).2).getD i0 0) 0 = i0 := by
    rw [hinv2]
    exact hinvf.2
  refine ⟨((toDigitsAux 4 (((Derive wl.length key).2).getD i0 0)).map
      fun digit => Digits.getD digit 0).flatMap utf8EncodeRune, ?_, ?_⟩
  · simp only [EncodeWords, if_neg (by simp [hlen] : ¬wl.length ≠ Total)]
    exact encodeLoop_single _ index _ i0 hne hidx hpos
  · exact decodeGlyphToken_eval wl key _ i0 hlen hpos hi0 hppos

def c1Vocab : List GoStr := List.replicate 2048 (strUtf8 "aa")

def c1Index : GoStr → Option Nat := fun w =>
  if w = strUtf8 "aa" then some 5 else none

theorem c1Vocab_length : c1Vocab.length = Total := by
  unfold c1Vocab Total
  rw [List.length_replicate]

theorem c1Vocab_getD : c1Vocab.getD 5 [] = strUtf8 "aa" := by
  unfold c1Vocab
  rw [List.getD_eq_getElem _ _ (by rw [List.length_replicate]; norm_num)]
  rw [List.getElem_replicate]

theorem c1_hidx :
    c1Index (goToLower (goTrimSpace (c1Vocab.getD 5 []))) = some 5 := by
  rw [c1Vocab_getD]
  decide

/-- Witness for C1: a concrete 2048-entry list, lookup index and the
non-trivial key `"k"`. -/
theorem C1_encode_decode_roundtrip_witness :
    (c1Vocab.length = Total ∧ 5 < Total ∧
      goToLower (goTrimSpace (c1Vocab.getD 5 [])) ≠ []) ∧
    ∃ tok, EncodeWords [c1Vocab.getD 5 []] c1Index c1Vocab (strUtf8 "k") =
        .ok [tok] ∧
      DecodeGlyphToken tok c1Vocab (strUtf8 "k") = .ok (c1Vocab.getD 5 []) :=
  ⟨⟨c1Vocab_length, by norm_num [Total], by rw [c1Vocab_getD]; decide⟩,
    C1_encode_decode_roundtrip c1Vocab c1Index (strUtf8 "k") 5
      c1Vocab_length (by norm_num [Total]) c1_hidx
      (by rw [c1Vocab_getD]; decide)⟩


/-! ## Claims C6–C10 -/

def c6StubArgon : Argon2Fn := fun _ _ _ _ _ _ => List.replicate 32 0

def c6ZeroCostPolicy : KeyPolicy :=
  { KDF := strUtf8 "argon2id", KDFMemMB := 0, KDFTime := 0,
    KDFParallel := 0, AllowWeak := false }

/-- C6 counterexample: with KDF mode `argon2id` and all three cost
parameters zero, `EffectiveKeyMaterial` succeeds (substituting the
defaults 512 MB / 3 iterations / parallelism 1) instead of returning the
fatal error the claim requires for a zero cost parameter. -/
theorem C6_counterexample :
    c6ZeroCostPolicy.KDFMemMB = 0 ∧ c6ZeroCostPolicy.KDFTime = 0 ∧
    c6ZeroCostPolicy.KDFParallel = 0 ∧
    (EffectiveKeyMaterial c6StubArgon (strUtf8 "k") c6ZeroCostPolicy).isOk =
      true := by
  refine ⟨rfl, rfl, rfl, ?_⟩
  unfold EffectiveKeyMaterial
  rw [if_pos (Or.inr (by decide : normKdf c6ZeroCostPolicy = strUtf8 "argon2id"))]
  rfl

/-- C6 (amended): `EffectiveKeyMaterial` returns a fatal error exactly for
an unknown KDF mode name; a zero cost parameter (memory, time, or
parallelism) is not an error — it is silently replaced by the default
value (512/3/1) and derivation proceeds. -/
theorem C6_amended (a2 : Argon2Fn) (key : GoStr) (policy : KeyPolicy) :
    ((EffectiveKeyMaterial a2 key policy).isOk = true ↔
      (normKdf policy = [] ∨ normKdf policy = strUtf8 "argon2id" ∨
        normKdf policy = strUtf8 "none")) ∧
    (EffectiveKeyMaterial a2 key { policy with KDFMemMB := 0 } =
      EffectiveKeyMaterial a2 key { policy with KDFMemMB := 512 }) ∧
    (EffectiveKeyMaterial a2 key { policy with KDFTime := 0 } =
      EffectiveKeyMaterial a2 key { policy with KDFTime := 3 }) ∧
    (EffectiveKeyMaterial a2 key { policy with KDFParallel := 0 } =
      EffectiveKeyMaterial a2 key { policy with KDFParallel := 1 }) := by
  refine ⟨?_, ?_, ?_, ?_⟩
  · unfold EffectiveKeyMaterial
    by_cases h1 : normKdf policy = [] ∨ normKdf policy = strUtf8 "argon2id"
    · rw [if_pos h1]
      constructor
      · intro _
        rcases h1 with h | h
        · exact Or.inl h
        · exact Or.inr (Or.inl h)
      · intro _
        rfl
    · rw [if_neg h1]
      by_cases h2 : normKdf policy = strUtf8 "none"
      · rw [if_pos h2]
        constructor
        · intro _
          exact Or.inr (Or.inr h2)
        · intro _
          rfl
      · rw [if_neg h2]
        constructor
        · intro hok
          simp [Except.isOk, Except.toBool] at hok
        · intro hmem
          rcases hmem with h | h | h
          · exact absurd (Or.inl h) h1
          · exact absurd (Or.inr h) h1
          · exact absurd h h2
  · unfold EffectiveKeyMaterial
    have hk : normKdf { policy with KDFMemMB := 0 } = normKdf policy := rfl
    have hk2 : normKdf { policy with KDFMemMB := 512 } = normKdf policy := rfl
    rw [hk, hk2]
    by_cases hc1 : normKdf policy = [] ∨ normKdf policy = strUtf8 "argon2id"
    · rw [if_pos hc1, if_pos hc1]
      norm_num
    · rw [if_neg hc1, if_neg hc1]
  · unfold EffectiveKeyMaterial
    have hk : normKdf { policy with KDFTime := 0 } = normKdf policy := rfl
    have hk2 : normKdf { policy with KDFTime := 3 } = normKdf policy := rfl
    rw [hk, hk2]
    by_cases hc1 : normKdf policy = [] ∨ normKdf policy = strUtf8 "argon2id"
    · rw [if_pos hc1, if_pos hc1]
      norm_num
    · rw [if_neg hc1, if_neg hc1]
  · unfold EffectiveKeyMaterial
    have hk : normKdf { policy with KDFParallel := 0 } = normKdf policy := rfl
    have hk2 : normKdf { policy with KDFParallel := 1 } = normKdf policy := rfl
    rw [hk, hk2]
    by_cases hc1 : normKdf policy = [] ∨ normKdf policy = strUtf8 "argon2id"
    · rw [if_pos hc1, if_pos hc1]
      norm_num
    · rw [if_neg hc1, if_neg hc1]

/-- Witness for the amended C6 at a concrete stub KDF, key and policy. -/
theorem C6_amended_witness :
    ((EffectiveKeyMaterial c6StubArgon (strUtf8 "k") DefaultKeyPolicy).isOk =
        true ↔
      (normKdf DefaultKeyPolicy = [] ∨
        normKdf DefaultKeyPolicy = strUtf8 "argon2id" ∨
        normKdf DefaultKeyPolicy = strUtf8 "none")) ∧
    (EffectiveKeyMaterial c6StubArgon (strUtf8 "k")
        { DefaultKeyPolicy with KDFMemMB := 0 } =
      EffectiveKeyMaterial c6StubArgon (strUtf8 "k")
        { DefaultKeyPolicy with KDFMemMB := 512 }) ∧
    (EffectiveKeyMaterial c6StubArgon (strUtf8 "k")
        { DefaultKeyPolicy with KDFTime := 0 } =
      EffectiveKeyMaterial c6StubArgon (strUtf8 "k")
        { DefaultKeyPolicy with KDFTime := 3 }) ∧
    (EffectiveKeyMaterial c6StubArgon (strUtf8 "k")
        { DefaultKeyPolicy with KDFParallel := 0 } =
      EffectiveKeyMaterial c6StubArgon (strUtf8 "k")
        { DefaultKeyPolicy with KDFParallel := 1 }) :=
  C6_amended c6StubArgon (strUtf8 "k") DefaultKeyPolicy

/-- C7 counterexample: the 16-code-point passphrase `" ` + 15 `a`s (a
leading space) is rejected under strong-mode 128-bit context, because the
code counts code points of the whitespace-trimmed passphrase; the claim
as stated says every 16-code-point passphrase is accepted. -/
theorem C7_counterexample :
    utf8RuneCount (strUtf8 " aaaaaaaaaaaaaaa") = 16 ∧
    normKdf DefaultKeyPolicy = strUtf8 "argon2id" ∧
    DefaultKeyPolicy.AllowWeak = false ∧
    (ValidateKeyStrength [] (strUtf8 " aaaaaaaaaaaaaaa") 128
      DefaultKeyPolicy).isOk = false := by
  refine ⟨by decide, by decide, rfl, by decide⟩

/-- C7 (amended): under strong mode with the weak-key override unset,
`ValidateKeyStrength` accepts exactly the passphrases whose
whitespace-trimmed form has at least 16 Unicode code points (128-bit
context) respectively at least 20 (256-bit context); shorter trimmed
forms, including the empty one, are rejected. -/
theorem C7_amended (bip : List GoStr) (key : GoStr) (policy : KeyPolicy)
    (hkdf : normKdf policy = [] ∨ normKdf policy = strUtf8 "argon2id")
    (hweak : policy.AllowWeak = false) :
    ((ValidateKeyStrength bip key 128 policy).isOk = true ↔
      16 ≤ utf8RuneCount (goTrimSpace key)) ∧
    ((ValidateKeyStrength bip key 256 policy).isOk = true ↔
      20 ≤ utf8RuneCount (goTrimSpace key)) := by
  constructor
  · unfold ValidateKeyStrength
    by_cases hk : goTrimSpace key = []
    · rw [if_pos hk, if_neg (by rw [hweak]; simp), hk]
      simp [Except.isOk, Except.toBool]
      decide
    · rw [if_neg hk, if_pos hkdf]
      dsimp only
      rw [if_neg (by norm_num : ¬(256 : Nat) ≤ 128)]
      by_cases hc : utf8RuneCount (goTrimSpace key) < 16
      · rw [if_pos hc, if_neg (by rw [hweak]; simp)]
        simp [Except.isOk, Except.toBool]
        omega
      · rw [if_neg hc]
        simp [Except.isOk, Except.toBool]
        omega
  · unfold ValidateKeyStrength
    by_cases hk : goTrimSpace key = []
    · rw [if_pos hk, if_neg (by rw [hweak]; simp), hk]
      simp [Except.isOk, Except.toBool]
      decide
    · rw [if_neg hk, if_pos hkdf]
      dsimp only
      rw [if_pos (by norm_num : (256 : Nat) ≤ 256)]
      by_cases hc : utf8RuneCount (goTrimSpace key) < 20
      · rw [if_pos hc, if_neg (by rw [hweak]; simp)]
        simp [Except.isOk, Except.toBool]
        omega
      · rw [if_neg hc]
        simp [Except.isOk, Except.toBool]
        omega

theorem C7_amended_witness :
    ((normKdf DefaultKeyPolicy = [] ∨
        normKdf DefaultKeyPolicy = strUtf8 "argon2id") ∧
      DefaultKeyPolicy.AllowWeak = false) ∧
    (((ValidateKeyStrength [] (strUtf8 "aaaaaaaaaaaaaaaaaaaa") 128
        DefaultKeyPolicy).isOk = true ↔
      16 ≤ utf8RuneCount (goTrimSpace (strUtf8 "aaaaaaaaaaaaaaaaaaaa"))) ∧
     ((ValidateKeyStrength [] (strUtf8 "aaaaaaaaaaaaaaaaaaaa") 256
        DefaultKeyPolicy).isOk = true ↔
      20 ≤ utf8RuneCount (goTrimSpace (strUtf8 "aaaaaaaaaaaaaaaaaaaa")))) :=
  ⟨⟨Or.inr (by decide), rfl⟩,
    C7_amended [] (strUtf8 "aaaaaaaaaaaaaaaaaaaa") DefaultKeyPolicy
      (Or.inr (by decide)) rfl⟩

/-- A 12-fold repetition of the vocabulary word `abandon` separated by
newlines (Go's base64 decoders skip `\n`). -/
def c8Key : GoStr :=
  strUtf8 "abandon\nabandon\nabandon\nabandon\nabandon\nabandon\nabandon\nabandon\nabandon\nabandon\nabandon\nabandon"

def c8PlainPolicy : KeyPolicy :=
  { KDF := strUtf8 "none", KDFMemMB := 0, KDFTime := 0,
    KDFParallel := 0, AllowWeak := false }

/-- C8 counterexample: a 12-fold `abandon` phrase separated by newlines
(`abandon` is a word of the BIP-39 English vocabulary, here the relevant
vocabulary fragment) is a base64 string in Go's decoder (which skips
newlines) of decoded length 63 bytes ≥ 256/8, yet `ValidateKeyStrength`
under plain mode at 256 bits rejects it: the phrase check fires first
with tier 128 < 256 and the hex/base64 formats are never consulted.  The
claim's plain disjunction would accept it. -/
theorem C8_counterexample :
    goTrimSpace c8Key ≠ [] ∧
    isStrongBase64 (goTrimSpace c8Key) 256 = true ∧
    (ValidateKeyStrength [strUtf8 "abandon"] c8Key 256 c8PlainPolicy).isOk =
      false := by
  refine ⟨by decide, by decide, by decide⟩

/-- C8 (amended): under plain mode (KDF `none`) with the weak-key override
unset, a non-empty key is accepted iff: when its trimmed form is a valid
12- or 24-word vocabulary phrase, the phrase tier meets `minBits` (the
phrase check takes precedence and hex/base64 are not consulted);
otherwise, when it is strong hex (length ≥ minBits/4) or strong base64
(decoded length ≥ minBits/8 bytes). -/
theorem C8_amended (bip : List GoStr) (key : GoStr) (minBits : Nat)
    (policy : KeyPolicy) (hkdf : normKdf policy = strUtf8 "none")
    (hweak : policy.AllowWeak = false) (hne : goTrimSpace key ≠ []) :
    ((ValidateKeyStrength bip key minBits policy).isOk = true ↔
      (match bip39BitsIfValid bip (goTrimSpace key) with
       | some bits => minBits ≤ bits
       | none => isStrongHex (goTrimSpace key) minBits = true ∨
           isStrongBase64 (goTrimSpace key) minBits = true)) := by
  unfold ValidateKeyStrength
  rw [if_neg hne, if_neg (by rw [hkdf]; decide), if_pos hkdf]
  by_cases hs : satisfiesPureEntropyFormats bip (goTrimSpace key) minBits = true
  · rw [if_pos hs]
    unfold satisfiesPureEntropyFormats at hs
    constructor
    · intro _
      rcases hb : bip39BitsIfValid bip (goTrimSpace key) with _ | bits
      · rw [hb] at hs
        simpa using hs
      · rw [hb] at hs
        simpa using hs
    · intro _
      rfl
  · rw [if_neg hs, if_neg (by rw [hweak]; simp)]
    unfold satisfiesPureEntropyFormats at hs
    constructor
    · intro hok
      simp [Except.isOk, Except.toBool] at hok
    · intro hm
      exfalso
      apply hs
      rcases hb : bip39BitsIfValid bip (goTrimSpace key) with _ | bits
      · rw [hb] at hm
        simpa using hm
      · rw [hb] at hm
        simpa using hm

/-- Hex key of 64 zeros (256 bits). -/
def c8HexKey : GoStr :=
  strUtf8 "0000000000000000000000000000000000000000000000000000000000000000"

/-- Witness for the amended C8: a 64-digit hex key at 256 bits. -/
theorem C8_amended_witness :
    (normKdf c8PlainPolicy = strUtf8 "none" ∧
      c8PlainPolicy.AllowWeak = false ∧ goTrimSpace c8HexKey ≠ []) ∧
    ((ValidateKeyStrength [] c8HexKey 256 c8PlainPolicy).isOk = true ↔
      (match bip39BitsIfValid [] (goTrimSpace c8HexKey) with
       | some bits => 256 ≤ bits
       | none => isStrongHex (goTrimSpace c8HexKey) 256 = true ∨
           isStrongBase64 (goTrimSpace c8HexKey) 256 = true)) :=
  ⟨⟨by decide, rfl, by decide⟩,
    C8_amended [] c8HexKey 256 c8PlainPolicy (by decide) rfl (by decide)⟩

/-- C10: for every key consisting entirely of whitespace runes (not only
the empty string), the system behaves exactly as in no-key mode:
`Derive` returns the identity permutation with identity inverse, the
effective-key computation of `EncodeWordsVerified` yields the empty
effective key without invoking strength enforcement or any KDF, and
`EncodeWordsVerified` coincides with its empty-key behavior. -/
theorem C10_whitespace_key_nokey (key : GoStr)
    (hws : ∀ r ∈ utf8Runes key, isGoSpace r = true) :
    (∀ n, Derive n key = (List.range n, List.range n)) ∧
    (∀ (a2 : Argon2Fn) (bip : List GoStr) (policy : KeyPolicy) (nW : Nat),
      effKeyOf a2 bip key policy nW = .ok []) ∧
    (∀ (a2 : Argon2Fn) (bip : List GoStr) (words : List GoStr)
      (index : GoStr → Option Nat) (wl : List GoStr) (policy : KeyPolicy),
      EncodeWordsVerified a2 bip words index wl key policy =
        EncodeWordsVerified a2 bip words index wl [] policy) := by
  have htrim : goTrimSpace key = [] := goTrimSpace_all_space key hws
  refine ⟨?_, ?_, ?_⟩
  · intro n
    unfold Derive
    by_cases hn : n = 0
    · subst hn
      simp
    · rw [if_neg hn, if_pos htrim]
      show (List.range n, Inv (List.range n)) = (List.range n, List.range n)
      rw [Inv_range]
  · intro a2 bip policy nW
    unfold effKeyOf
    rw [if_pos htrim]
  · intro a2 bip words index wl policy
    have h1 : ∀ nW, effKeyOf a2 bip key policy nW = .ok [] := by
      intro nW
      unfold effKeyOf
      rw [if_pos htrim]
    have h2 : ∀ nW, effKeyOf a2 bip ([] : GoStr) policy nW = .ok [] := by
      intro nW
      unfold effKeyOf
      rw [if_pos (show goTrimSpace ([] : GoStr) = [] from rfl)]
    simp only [EncodeWordsVerified, h1, h2]

/-- Witness for C10: the key `" \t "` (space, tab, and a no-break
space) is non-empty and all-whitespace. -/
theorem C10_whitespace_key_nokey_witness :
    (strUtf8 " \t " ≠ [] ∧
      (∀ r ∈ utf8Runes (strUtf8 " \t "), isGoSpace r = true)) ∧
    ((∀ n, Derive n (strUtf8 " \t ") = (List.range n, List.range n)) ∧
      (∀ (a2 : Argon2Fn) (bip : List GoStr) (policy : KeyPolicy) (nW : Nat),
        effKeyOf a2 bip (strUtf8 " \t ") policy nW = .ok []) ∧
      (∀ (a2 : Argon2Fn) (bip : List GoStr) (words : List GoStr)
        (index : GoStr → Option Nat) (wl : List GoStr) (policy : KeyPolicy),
        EncodeWordsVerified a2 bip words index wl (strUtf8 " \t ") policy =
          EncodeWordsVerified a2 bip words index wl [] policy)) :=
  ⟨⟨by decide, by decide⟩,
    C10_whitespace_key_nokey (strUtf8 " \t ") (by decide)⟩

/-- C9: `EncodeWordsVerified` encodes, then immediately decodes its own
output with the same effective key and compares order-sensitively against
the normalized input: a successful result is exactly an encoding whose
decode reproduces the normalized input, and whenever the decode of its
own encode differs (in length or at any position, i.e. as a list), the
function returns an error and produces no glyph tokens. -/
theorem C9_encodeVerified_checks (a2 : Argon2Fn) (bip : List GoStr)
    (words : List GoStr) (index : GoStr → Option Nat) (wl : List GoStr)
    (key : GoStr) (policy : KeyPolicy) :
    (∀ glyphs,
      EncodeWordsVerified a2 bip words index wl key policy = .ok glyphs →
      ∃ ek, effKeyOf a2 bip key policy (normalizeWords words).length = .ok ek ∧
        EncodeWords (normalizeWords words) index wl ek = .ok glyphs ∧
        DecodeGlyphTokens glyphs wl ek = .ok (normalizeWords words)) ∧
    (∀ ek glyphs decoded,
      effKeyOf a2 bip key policy (normalizeWords words).length = .ok ek →
      EncodeWords (normalizeWords words) index wl ek = .ok glyphs →
      DecodeGlyphTokens glyphs wl ek = .ok decoded →
      decoded ≠ normalizeWords words →
      ∃ e, EncodeWordsVerified a2 bip words index wl key policy =
        .error e) := by
  constructor
  · intro glyphs hok
    unfold EncodeWordsVerified at hok
    split at hok
    · exact absurd hok (by simp)
    · dsimp only at hok
      split at hok
      · exact absurd hok (by simp)
      · split at hok
        · exact absurd hok (by simp)
        · rename_i heff
          split at hok
          · exact absurd hok (by simp)
          · rename_i henc
            split at hok
            · exact absurd hok (by simp)
            · rename_i hdec
              split at hok
              · exact absurd hok (by simp)
              · split at hok
                · exact absurd hok (by simp)
                · rename_i hlen2 hne2
                  have hdeq := not_not.mp hne2
                  rw [Except.ok.injEq] at hok
                  subst hok
                  refine ⟨_, heff, ?_, ?_⟩
                  · exact henc
                  · rw [hdeq] at hdec
                    exact hdec
  · intro ek glyphs decoded heff henc hdec hne
    unfold EncodeWordsVerified
    split
    · exact ⟨_, rfl⟩
    · dsimp only
      split
      · exact ⟨_, rfl⟩
      · rw [heff]
        dsimp only
        rw [henc]
        dsimp only
        rw [hdec]
        dsimp only
        rw [if_pos hne]
        split
        all_goals exact ⟨_, rfl⟩

def c9Stub : Argon2Fn := fun _ _ _ _ _ _ => List.replicate 32 0

theorem range_total_getD_5 : ((List.range Total).getD 5 0) = 5 := by
  rw [List.getD_eq_getElem _ 0 (by simp [Total])]
  exact List.getElem_range 5 _

theorem c9_effKey (a2 : Argon2Fn) (bip : List GoStr) (policy : KeyPolicy)
    (n : Nat) : effKeyOf a2 bip [] policy n = .ok [] := by
  unfold effKeyOf
  rw [if_pos (show goTrimSpace ([] : GoStr) = [] from rfl)]

theorem c9_norm : normalizeWords [strUtf8 "aa"] = [strUtf8 "aa"] := by decide

theorem c9_henc :
    EncodeWords [strUtf8 "aa"] c1Index c1Vocab [] =
      .ok [((toDigitsAux 4 5).map fun digit =>
        Digits.getD digit 0).flatMap utf8EncodeRune] := by
  unfold EncodeWords
  rw [if_neg (by rw [c1Vocab_length]; simp)]
  rw [c1Vocab_length, Derive_nokey]
  dsimp only
  have h := encodeLoop_single (List.range Total) c1Index (strUtf8 "aa") 5
    (by decide) (by decide) (by rw [range_total_getD_5]; norm_num [Total])
  rw [h, range_total_getD_5]

theorem c9_hdec :
    DecodeGlyphTokens [((toDigitsAux 4 5).map fun digit =>
        Digits.getD digit 0).flatMap utf8EncodeRune] c1Vocab [] =
      .ok [strUtf8 "aa"] := by
  have h1 : DecodeGlyphToken (((toDigitsAux 4 5).map fun digit =>
      Digits.getD digit 0).flatMap utf8EncodeRune) c1Vocab [] =
      .ok (c1Vocab.getD 5 []) :=
    decodeGlyphToken_eval c1Vocab [] 5 5 c1Vocab_length
      (by norm_num [Total]) (by norm_num [Total])
      (by rw [c1Vocab_length, Derive_nokey]; exact range_total_getD_5)
  unfold DecodeGlyphTokens
  rw [h1, c1Vocab_getD]
  rfl

theorem c9_ewv :
    EncodeWordsVerified c9Stub []
      [strUtf8 "aa"] c1Index c1Vocab [] DefaultKeyPolicy =
      .ok [((toDigitsAux 4 5).map fun digit =>
        Digits.getD digit 0).flatMap utf8EncodeRune] := by
  unfold EncodeWordsVerified
  rw [if_neg (by rw [c1Vocab_length]; simp)]
  dsimp only
  rw [c9_norm]
  rw [if_neg (by simp)]
  rw [c9_effKey c9Stub [] DefaultKeyPolicy]
  dsimp only
  rw [c9_henc]
  dsimp only
  rw [c9_hdec]
  dsimp only
  rw [if_neg (by simp)]
  rw [if_neg (by simp)]

/-- Witness for C9: a concrete verified encode succeeds and the theorem
yields the matching encode/decode equations for its output. -/
theorem C9_encodeVerified_checks_witness :
    ∃ ek,
      effKeyOf c9Stub [] [] DefaultKeyPolicy
        (normalizeWords [strUtf8 "aa"]).length = .ok ek ∧
      EncodeWords (normalizeWords [strUtf8 "aa"]) c1Index c1Vocab ek =
        .ok [((toDigitsAux 4 5).map fun digit =>
          Digits.getD digit 0).flatMap utf8EncodeRune] ∧
      DecodeGlyphTokens [((toDigitsAux 4 5).map fun digit =>
          Digits.getD digit 0).flatMap utf8EncodeRune] c1Vocab ek =
        .ok (normalizeWords [strUtf8 "aa"]) :=
  (C9_encodeVerified_checks c9Stub []
    [strUtf8 "aa"] c1Index c1Vocab [] DefaultKeyPolicy).1
    _ c9_ewv

end GlyphRiot
